import Mathlib

/-!
Verification development for the arboretum repository: a node arena, a 2D
point quadtree (src/spatial/quadtree) and a sequence trie (src/trie).

Shallow embedding conventions:
* `f32` coordinates are modelled as `ℚ`. The quadtree code performs no
  floating-point arithmetic on coordinates — it only copies them
  (`BBox2D::subdivide` uses the resident point as pivot) and compares them
  with `<=` / `<` / `==` — so any linearly ordered field is a faithful model
  of the non-NaN fragment.
* nalgebra's `Matrix::lt` / `Matrix::le` (used by `BBox2D::contains` through
  `self.min <= *p && *p < self.max`) are the componentwise-all comparisons,
  which is exactly the per-axis half-open convention modelled here.
* The quadtree allocates each node exactly once in its arena, never deletes,
  and parents hold exactly their own children's ids, so the id indirection is
  modelled by direct structural children (`Quad` below).  The trie's delete
  path manipulates arena ids in an observable way, so the trie model keeps the
  arena (`Arena` below) explicit, as in the source.
* Rust panics (`panic!`, `expect`, `unwrap`, out-of-bounds indexing) are
  modelled as an explicit `panicked` outcome, distinct from recoverable
  `Result::Err` values.
-/

/-- 2D vector, modelling `prelude.rs`: `type Vec2 = na::Vector2<f32>`. -/
structure Vec2 where
  x : ℚ
  y : ℚ
deriving DecidableEq

/-- Axis-aligned bounding box, modelling `BBox2D { min, max }`. -/
structure BBox2D where
  min : Vec2
  max : Vec2
deriving DecidableEq

/-- Componentwise `<=` on vectors (nalgebra `Matrix::le`). -/
def Vec2.leP (a b : Vec2) : Prop := a.x ≤ b.x ∧ a.y ≤ b.y

/-- Componentwise `<` on vectors (nalgebra `Matrix::lt`). -/
def Vec2.ltP (a b : Vec2) : Prop := a.x < b.x ∧ a.y < b.y

instance (a b : Vec2) : Decidable (Vec2.leP a b) := by unfold Vec2.leP; infer_instance

instance (a b : Vec2) : Decidable (Vec2.ltP a b) := by unfold Vec2.ltP; infer_instance

/-- `BBox2D::contains`: `self.min <= *p && *p < self.max` (half-open box). -/
def BBox2D.contains (b : BBox2D) (p : Vec2) : Bool :=
  decide (Vec2.leP b.min p ∧ Vec2.ltP p b.max)

/-- Propositional form of `BBox2D.contains`. -/
def BBox2D.containsP (b : BBox2D) (p : Vec2) : Prop :=
  Vec2.leP b.min p ∧ Vec2.ltP p b.max

/-- `Range::intersects`: `self.0.1 >= other.0.0 && other.0.1 >= self.0.0`. -/
def rangeIntersects (r o : ℚ × ℚ) : Bool :=
  decide (o.1 ≤ r.2 ∧ r.1 ≤ o.2)

/-- `BBox2D::xrange`. -/
def BBox2D.xrange (b : BBox2D) : ℚ × ℚ := (b.min.x, b.max.x)

/-- `BBox2D::yrange`. -/
def BBox2D.yrange (b : BBox2D) : ℚ × ℚ := (b.min.y, b.max.y)

/-- `BBox2D::intersects`: interval overlap on both axes (closed intervals). -/
def BBox2D.intersects (b o : BBox2D) : Bool :=
  rangeIntersects b.xrange o.xrange && rangeIntersects b.yrange o.yrange

/-- `BBox2D::subdivide`: four sub-boxes pivoted on `mid`, in SW, SE, NE, NW
order, exactly as listed in the source array. -/
def BBox2D.subdivide (b : BBox2D) (mid : Vec2) : BBox2D × BBox2D × BBox2D × BBox2D :=
  (⟨b.min, mid⟩,
   ⟨⟨mid.x, b.min.y⟩, ⟨b.max.x, mid.y⟩⟩,
   ⟨mid, b.max⟩,
   ⟨⟨b.min.x, mid.y⟩, ⟨mid.x, b.max.y⟩⟩)

/-- A quadtree node (`Quad` in `point_quadtree.rs`): a bbox, at most one
point/payload, and optionally exactly four children in SW, SE, NE, NW order.
The arena-id indirection of the source is replaced by direct structural
children (the quadtree never deletes nodes and every node id occurs exactly
once as a child). -/
inductive Quad (P : Type) where
  | leaf (bbox : BBox2D) (point : Option (Vec2 × P))
  | branch (bbox : BBox2D) (point : Option (Vec2 × P)) (sw se ne nw : Quad P)
deriving DecidableEq

/-- The bbox of a quad node. -/
def Quad.bboxOf {P : Type} : Quad P → BBox2D
  | .leaf b _ => b
  | .branch b _ _ _ _ _ => b

/-- All point/payload pairs stored in a quad subtree, listed in pre-order:
resident point first, then the SW, SE, NE, NW subtrees.  This is the exact
order `_find_within` emits surviving points in. -/
def Quad.stored {P : Type} : Quad P → List (Vec2 × P)
  | .leaf _ pt => pt.toList
  | .branch _ pt sw se ne nw =>
      pt.toList ++ sw.stored ++ se.stored ++ ne.stored ++ nw.stored

/-- `PointQuadtree::_insert` specialised to a freshly created empty child
(one recursion step into a just-subdivided quadrant: the child has no point
and no children, so the call either stores the element or fails the bbox
test). -/
def quadInsertEmpty {P : Type} (b : BBox2D) (elem : Vec2 × P) : Bool × Quad P :=
  if b.contains elem.1 then (true, .leaf b (some elem)) else (false, .leaf b none)

/-- `PointQuadtree::_insert`, recursing over the node structure.  The
`children.iter().any(...)` loop is written out for the four SW, SE, NE, NW
children with its left-to-right short-circuit evaluation; children visited
before the successful one keep their (possibly) updated value, children after
it are untouched. -/
def Quad.insertQ {P : Type} : Quad P → Vec2 × P → Bool × Quad P
  | .leaf b pt, elem =>
    if b.contains elem.1 then
      match pt with
      | none => (true, .leaf b (some elem))
      | some q =>
        if q.1 = elem.1 then (false, .leaf b (some q))
        else
          let bs := b.subdivide q.1
          let r1 := quadInsertEmpty bs.1 elem
          if r1.1 then
            (true, .branch b (some q) r1.2 (.leaf bs.2.1 none) (.leaf bs.2.2.1 none) (.leaf bs.2.2.2 none))
          else
            let r2 := quadInsertEmpty bs.2.1 elem
            if r2.1 then
              (true, .branch b (some q) r1.2 r2.2 (.leaf bs.2.2.1 none) (.leaf bs.2.2.2 none))
            else
              let r3 := quadInsertEmpty bs.2.2.1 elem
              if r3.1 then
                (true, .branch b (some q) r1.2 r2.2 r3.2 (.leaf bs.2.2.2 none))
              else
                let r4 := quadInsertEmpty bs.2.2.2 elem
                (r4.1, .branch b (some q) r1.2 r2.2 r3.2 r4.2)
    else (false, .leaf b pt)
  | .branch b pt sw se ne nw, elem =>
    if b.contains elem.1 then
      match pt with
      | none => (true, .branch b (some elem) sw se ne nw)
      | some q =>
        if q.1 = elem.1 then (false, .branch b (some q) sw se ne nw)
        else
          let r1 := sw.insertQ elem
          if r1.1 then (true, .branch b (some q) r1.2 se ne nw)
          else
            let r2 := se.insertQ elem
            if r2.1 then (true, .branch b (some q) r1.2 r2.2 ne nw)
            else
              let r3 := ne.insertQ elem
              if r3.1 then (true, .branch b (some q) r1.2 r2.2 r3.2 nw)
              else
                let r4 := nw.insertQ elem
                (r4.1, .branch b (some q) r1.2 r2.2 r3.2 r4.2)
    else (false, .branch b pt sw se ne nw)

/-- `PointQuadtree::_find`: exact-match descent.  Note that a node with no
resident point answers `None` without inspecting children. -/
def Quad.findQ {P : Type} : Quad P → Vec2 → Option (Vec2 × P)
  | .leaf b pt, p =>
    if b.contains p then
      match pt with
      | none => none
      | some x => if x.1 = p then some x else none
    else none
  | .branch b pt sw se ne nw, p =>
    if b.contains p then
      match pt with
      | none => none
      | some x =>
        if x.1 = p then some x
        else
          match sw.findQ p with
          | some r => some r
          | none =>
            match se.findQ p with
            | some r => some r
            | none =>
              match ne.findQ p with
              | some r => some r
              | none => nw.findQ p
    else none

/-- `PointQuadtree::_find_within`: prune on closed-interval bbox
intersection; emit the resident point if the query box contains it, then the
four subtrees in SW, SE, NE, NW order. -/
def Quad.findWithinQ {P : Type} : Quad P → BBox2D → List (Vec2 × P)
  | .leaf b pt, q =>
    if b.intersects q then
      match pt with
      | none => []
      | some x => if q.contains x.1 then [x] else []
    else []
  | .branch b pt sw se ne nw, q =>
    if b.intersects q then
      (match pt with
       | none => []
       | some x => if q.contains x.1 then [x] else []) ++
      sw.findWithinQ q ++ se.findWithinQ q ++ ne.findWithinQ q ++ nw.findWithinQ q
    else []

/-- The tree object (`PointQuadtree { arena, root_id, size }`): root node
plus the point counter. -/
structure PointQuadtree (P : Type) where
  root : Quad P
  size : Nat
deriving DecidableEq

/-- `PointQuadtree::new`: root bound to the bbox, empty, no children. -/
def PointQuadtree.new {P : Type} (bbox : BBox2D) : PointQuadtree P :=
  ⟨.leaf bbox none, 0⟩

/-- `PointQuadtree::len`. -/
def PointQuadtree.len {P : Type} (t : PointQuadtree P) : Nat := t.size

/-- `PointQuadtree::insert`: run `_insert` at the root, bump the counter on
success. -/
def PointQuadtree.insert {P : Type} (t : PointQuadtree P) (p : Vec2) (payload : P) :
    Bool × PointQuadtree P :=
  let r := t.root.insertQ (p, payload)
  if r.1 then (true, ⟨r.2, t.size + 1⟩) else (false, ⟨r.2, t.size⟩)

/-- `PointQuadtree::find`. -/
def PointQuadtree.find {P : Type} (t : PointQuadtree P) (p : Vec2) : Option (Vec2 × P) :=
  t.root.findQ p

/-- `PointQuadtree::find_within`. -/
def PointQuadtree.find_within {P : Type} (t : PointQuadtree P) (q : BBox2D) : List (Vec2 × P) :=
  t.root.findWithinQ q

/-- Run a list of insert operations from a given tree, also recording each
operation's boolean result. -/
def PointQuadtree.buildFrom {P : Type} :
    PointQuadtree P → List (Vec2 × P) → PointQuadtree P × List Bool
  | t, [] => (t, [])
  | t, op :: rest =>
    let r := t.insert op.1 op.2
    let rec' := PointQuadtree.buildFrom r.2 rest
    (rec'.1, r.1 :: rec'.2)

/-- A quadtree reachable from `new bbox` by a sequence of (attempted)
inserts. -/
def PointQuadtree.build {P : Type} (bbox : BBox2D) (ops : List (Vec2 × P)) : PointQuadtree P :=
  (PointQuadtree.buildFrom (PointQuadtree.new bbox) ops).1

/-- Structural invariant of reachable quadtrees: every resident point lies in
its node's (half-open) bbox, every branch node has a resident point, and the
four child boxes of a branch are exactly the subdivision of its bbox pivoted
on its resident point (the point resident at subdivision time never moves or
disappears: there is no delete). -/
def Quad.inv {P : Type} : Quad P → Prop
  | .leaf b pt => ∀ x, pt = some x → b.containsP x.1
  | .branch b pt sw se ne nw =>
    ∃ q, pt = some q ∧ b.containsP q.1 ∧
      sw.bboxOf = (b.subdivide q.1).1 ∧
      se.bboxOf = (b.subdivide q.1).2.1 ∧
      ne.bboxOf = (b.subdivide q.1).2.2.1 ∧
      nw.bboxOf = (b.subdivide q.1).2.2.2 ∧
      sw.inv ∧ se.inv ∧ ne.inv ∧ nw.inv

/-- The implicit invariant of claim C10: a node with children present also
holds a resident point. -/
def Quad.childrenImplyPoint {P : Type} : Quad P → Prop
  | .leaf _ _ => True
  | .branch _ pt sw se ne nw =>
    pt.isSome = true ∧ sw.childrenImplyPoint ∧ se.childrenImplyPoint ∧
      ne.childrenImplyPoint ∧ nw.childrenImplyPoint

/-- Well-formedness of a reachable quadtree state: structural invariant,
pairwise-distinct stored points, and a size counter equal to the number of
stored points. -/
def PointQuadtree.WF {P : Type} (t : PointQuadtree P) : Prop :=
  t.root.inv ∧ (t.root.stored.map Prod.fst).Nodup ∧ t.size = t.root.stored.length

/-! ## Node arena (`src/arena/mod.rs`)

`Arena<T>` is a `HashMap<usize, Arc<RwLock<T>>>` plus an atomic id counter.
The hash map is modelled as an association list (`addNode` prepends after a
`contains_key` check, `deleteNode` removes the key, `getNode` looks the key
up); lock/`Arc` structure is irrelevant to the sequential claims. -/

/-- The `HasId` trait of `arena/mod.rs` with `Id = usize`. -/
class HasId (N : Type) where
  get_id : N → Nat

/-- The number of values of `usize` (modelled as 64 bits): arithmetic on the
arena's `AtomicUsize` counter is modular with this modulus. -/
def usizeSize : Nat := 2 ^ 64

/-- `Arena<T>`: storage table plus id counter. -/
structure Arena (N : Type) where
  storage : List (Nat × N)
  id_counter : Nat
deriving DecidableEq

/-- `Arena::new`: empty table, counter `AtomicUsize::default()` = 0. -/
def Arena.new {N : Type} : Arena N := ⟨[], 0⟩

/-- `Arena::get_node`: table lookup. -/
def Arena.get_node {N : Type} (a : Arena N) (id : Nat) : Option N :=
  (a.storage.find? (fun kv => kv.1 == id)).map (fun kv => kv.2)

/-- `Arena::add_node`: fails iff an entry for the node's id already exists,
otherwise installs the node under its id. -/
def Arena.add_node {N : Type} [HasId N] (a : Arena N) (n : N) : Except String (Arena N) :=
  if a.storage.any (fun kv => kv.1 == HasId.get_id n) then
    .error ("node already exists!")
  else
    .ok ⟨(HasId.get_id n, n) :: a.storage, a.id_counter⟩

/-- `Arena::delete_node`: fails iff no entry exists, otherwise removes it. -/
def Arena.delete_node {N : Type} (a : Arena N) (id : Nat) : Except String (Arena N) :=
  if a.storage.any (fun kv => kv.1 == id) then
    .ok ⟨a.storage.filter (fun kv => ¬ kv.1 == id), a.id_counter⟩
  else
    .error ("node doesn't exist!")

/-- `Arena::get_new_id`: `fetch_add(1)` on the counter — returns the old
counter value and stores the incremented value.  `AtomicUsize::fetch_add`
always uses wrapping arithmetic, so the stored value wraps to 0 once the
counter passes `usize::MAX` and identities repeat from there. -/
def Arena.get_new_id {N : Type} (a : Arena N) : Nat × Arena N :=
  (a.id_counter, ⟨a.storage, (a.id_counter + 1) % usizeSize⟩)

/-- Overwrite the node stored under `id` (a write through the node's
`Arc<RwLock<...>>` cell obtained from `get_node`: the cell is the table
entry itself). -/
def Arena.set_node {N : Type} (a : Arena N) (id : Nat) (n : N) : Arena N :=
  ⟨a.storage.map (fun kv => if kv.1 = id then (kv.1, n) else kv), a.id_counter⟩

/-- One client-visible arena operation, for claim C9. -/
inductive ArenaOp (N : Type) where
  | addNode (n : N)
  | deleteNode (id : Nat)
  | newId

/-- Discriminator for the identity-issuing operation (used to count how many
identities a sequence of operations requests). -/
def ArenaOp.isNewId {N : Type} : ArenaOp N → Bool
  | .newId => true
  | _ => false

/-- Run one arena operation; `newId` records the identity it issued. -/
def Arena.runOp {N : Type} [HasId N] (a : Arena N) : ArenaOp N → Arena N × Option Nat
  | .addNode n =>
    match a.add_node n with
    | .ok a' => (a', none)
    | .error _ => (a, none)
  | .deleteNode id =>
    match a.delete_node id with
    | .ok a' => (a', none)
    | .error _ => (a, none)
  | .newId =>
    let r := a.get_new_id
    (r.2, some r.1)

/-- Run a sequence of arena operations, collecting all issued identities in
issue order. -/
def Arena.runOps {N : Type} [HasId N] : Arena N → List (ArenaOp N) → Arena N × List Nat
  | a, [] => (a, [])
  | a, op :: rest =>
    let r := a.runOp op
    let rec' := Arena.runOps r.1 rest
    (rec'.1, r.2.toList ++ rec'.2)

/-! ## Grammar (`src/trie/grammar.rs`) -/

deriving instance DecidableEq for Except

/-- `Case`. -/
inductive Case where
  | sensitive
  | insensitive
deriving DecidableEq

/-- `preprocess_char`: case-fold ASCII uppercase when insensitive
(`is_ascii_uppercase` then `to_ascii_lowercase`). -/
def preprocess_char (c : Char) (sense : Case) : Char :=
  match sense with
  | .sensitive => c
  | .insensitive =>
    if 65 ≤ c.toNat ∧ c.toNat ≤ 90 then Char.ofNat (c.toNat + 32) else c

/-- `Grammar`: map from (preprocessed) char to dense branch index, plus the
case policy.  The `HashMap` is an association list here; `Grammar::from`
inserts each key at most once, so keys are distinct and lookup order is
immaterial. -/
structure Grammar where
  mapping : List (Char × Nat)
  sense : Case
deriving DecidableEq

/-- `Grammar::idx`: preprocess, then look the char up. -/
def Grammar.idx (g : Grammar) (c : Char) : Option Nat :=
  (g.mapping.find? (fun kv => kv.1 == preprocess_char c g.sense)).map (fun kv => kv.2)

/-- `Grammar::to_indices`: encode a string, failing at the first char outside
the grammar (the source's error message also interpolates the char and the
grammar display; the message text carries no semantics the claims use). -/
def Grammar.to_indices (g : Grammar) (s : List Char) : Except String (List Nat) :=
  match s with
  | [] => .ok []
  | c :: cs =>
    match g.idx c with
    | none => .error ("char is not part of grammar")
    | some i =>
      match g.to_indices cs with
      | .error e => .error e
      | .ok rest => .ok (i :: rest)

/-- Insert a char into a descending-sorted list (by Unicode scalar value).
`Grammar::from` sorts its chars with `sort_by(|a, b| b.cmp(a))`, i.e.
descending and stable; on equal chars stability is irrelevant because the
first-occurrence check below deduplicates equal keys. -/
def insertDesc (c : Char) : List Char → List Char
  | [] => [c]
  | d :: ds => if d ≤ c then c :: d :: ds else d :: insertDesc c ds

/-- Descending sort of a char list (the `chars.sort_by(|a, b| b.cmp(a))` of
`Grammar::from`). -/
def sortDesc : List Char → List Char
  | [] => []
  | c :: cs => insertDesc c (sortDesc cs)

/-- `Grammar::from`: sort the alphabet descending, then give each distinct
preprocessed char the next dense index (`mapping.len()` at insertion time). -/
def Grammar.fromStr (s : List Char) (sense : Case) : Grammar :=
  let chars := sortDesc s
  let mapping := chars.foldl
    (fun m c0 =>
      let k := preprocess_char c0 sense
      if (m.find? (fun kv => kv.1 == k)).isSome then m else m ++ [(k, m.length)])
    []
  ⟨mapping, sense⟩

/-- `Grammar::seq`: the inverse vector — a char list of length
`mapping.len()` with `seq[v] = k` for each mapping entry. -/
def Grammar.seq (g : Grammar) : List Char :=
  g.mapping.foldl (fun acc kv => acc.set kv.2 kv.1) (List.replicate g.mapping.length '$')

/-- `Grammar::default()`: the lowercase alphabet, case-insensitive. -/
def Grammar.defaultGrammar : Grammar :=
  Grammar.fromStr "abcdefghijklmnopqrstuvwxyz".toList Case.insensitive

/-! ## Trie (`src/trie/trie.rs`) -/

/-- `TrieNode<T>`. -/
structure TrieNode (T : Type) where
  id : Nat
  payload : Option T
  arity : Nat
  children : List (Option Nat)
deriving DecidableEq

instance {T : Type} : HasId (TrieNode T) := ⟨TrieNode.id⟩

/-- `TrieNode::new`. -/
def TrieNode.newNode {T : Type} (id : Nat) (payload : Option T) (arity : Nat) : TrieNode T :=
  ⟨id, payload, arity, List.replicate arity none⟩

/-- `TrieNode::is_terminal`. -/
def TrieNode.is_terminal {T : Type} (n : TrieNode T) : Bool := n.payload.isSome

/-- `TrieNode::is_leaf`. -/
def TrieNode.is_leaf {T : Type} (n : TrieNode T) : Bool := n.children.all (fun c => c.isNone)

/-- `TrieNode::can_delete`: no payload and no children. -/
def TrieNode.can_delete {T : Type} (n : TrieNode T) : Bool := !n.is_terminal && n.is_leaf

/-- `OnCollision`. -/
inductive OnCollision where
  | returnError
  | applyFn

/-- `Trie<T>`. -/
structure Trie (T : Type) where
  arena : Arena (TrieNode T)
  grammar : Grammar
  root : Nat
  size : Nat
deriving DecidableEq

/-- Outcome of a fallible, possibly panicking trie operation: `ok` and `err`
carry the resulting trie state (`Result::Ok` / `Result::Err` on `&mut self`),
`panicked` models a Rust panic (`panic!` / `expect` / `unwrap` /
out-of-bounds indexing) aborting the program. -/
inductive TOut (T α : Type) where
  | ok : α → Trie T → TOut T α
  | err : String → Trie T → TOut T α
  | panicked : String → TOut T α
deriving DecidableEq

/-- Outcome of a read-only, possibly panicking trie operation. -/
inductive PRes (α : Type) where
  | ok : α → PRes α
  | panicked : String → PRes α
deriving DecidableEq

/-- `Trie::new`: allocate the root (id 0 from the fresh arena) with branch
arity `grammar.seq().len()`; adding it to the empty arena cannot fail (the
source `expect`s on it). -/
def Trie.new {T : Type} (g : Grammar) : Trie T :=
  let a0 : Arena (TrieNode T) := Arena.new
  let r := a0.get_new_id
  let rootNode : TrieNode T := TrieNode.newNode r.1 none g.seq.length
  match r.2.add_node rootNode with
  | .ok a2 => ⟨a2, g, r.1, 0⟩
  | .error _ => ⟨r.2, g, r.1, 0⟩

/-- `Trie::len`. -/
def Trie.len {T : Type} (tr : Trie T) : Nat := tr.size

/-- `Trie::is_empty`. -/
def Trie.is_empty {T : Type} (tr : Trie T) : Bool := tr.size == 0

/-- `Trie::preprocess_seq`: encode via the grammar and `panic!` on a failed
encoding (this is the abort-on-bad-input behaviour claim C4 is about). -/
def Trie.preprocess_seq {T : Type} (tr : Trie T) (s : List Char) : PRes (List Nat) :=
  match tr.grammar.to_indices s with
  | .ok indices => .ok indices
  | .error msg => .panicked msg

/-- `Trie::_insert_apply`: descend along the encoded sequence, lazily
creating missing children; at the end of the path apply the collision
policy.  `get_node(..).expect(..)`, `add_node(..).expect(..)` and the
`children[*idx]` indexing are panics when they fail. -/
def Trie.insertApplyRec {T : Type} (tr : Trie T) (seq : List Nat) (nodeId : Nat) (t : T)
    (f : T → T) (oc : OnCollision) : TOut T (Option T) :=
  match seq with
  | [] =>
    match tr.arena.get_node nodeId with
    | none => .panicked ("node doesnt exist!")
    | some node =>
      match node.payload with
      | some prev =>
        match oc with
        | .returnError => .err ("key already exists") tr
        | .applyFn =>
          .ok (some prev)
            { tr with arena := tr.arena.set_node nodeId { node with payload := some (f prev) } }
      | none =>
        .ok none
          { tr with arena := tr.arena.set_node nodeId { node with payload := some t },
                    size := tr.size + 1 }
  | idx :: remaining =>
    match tr.arena.get_node nodeId with
    | none => .panicked ("node doesnt exist!")
    | some node =>
      match node.children.get? idx with
      | none => .panicked ("index out of bounds")
      | some (some next) => Trie.insertApplyRec tr remaining next t f oc
      | some none =>
        let r := tr.arena.get_new_id
        let child : TrieNode T := TrieNode.newNode r.1 none node.arity
        match r.2.add_node child with
        | .error _ => .panicked ("could not add node!")
        | .ok a2 =>
          let a3 := a2.set_node nodeId { node with children := node.children.set idx (some r.1) }
          Trie.insertApplyRec { tr with arena := a3 } remaining r.1 t f oc

/-- `Trie::insert`: encode, then `_insert_apply` with the `ReturnError`
collision policy, discarding the `Ok` payload. -/
def Trie.insert {T : Type} [Inhabited T] (tr : Trie T) (s : List Char) (t : T) : TOut T Unit :=
  match tr.preprocess_seq s with
  | .panicked m => .panicked m
  | .ok seq =>
    match Trie.insertApplyRec tr seq tr.root t (fun _ => default) .returnError with
    | .ok _ tr' => .ok () tr'
    | .err e tr' => .err e tr'
    | .panicked m => .panicked m

/-- `Trie::insert_or_apply`. -/
def Trie.insert_or_apply {T : Type} (tr : Trie T) (s : List Char) (t : T) (f : T → T) :
    TOut T (Option T) :=
  match tr.preprocess_seq s with
  | .panicked m => .panicked m
  | .ok seq => Trie.insertApplyRec tr seq tr.root t f .applyFn

/-- `Trie::insert_or_update`: `insert_or_apply` replacing the old value. -/
def Trie.insert_or_update {T : Type} (tr : Trie T) (s : List Char) (t : T) : TOut T (Option T) :=
  tr.insert_or_apply s t (fun _ => t)

/-- `Trie::_find`: descend along the encoded sequence; an unresolvable node
or an absent branch answers `None`. -/
def Trie.findRec {T : Type} (tr : Trie T) (seq : List Nat) (nodeId : Nat) : PRes (Option T) :=
  match tr.arena.get_node nodeId with
  | none => .ok none
  | some node =>
    match seq with
    | [] => .ok node.payload
    | idx :: remaining =>
      match node.children.get? idx with
      | none => .panicked ("index out of bounds")
      | some none => .ok none
      | some (some next) => Trie.findRec tr remaining next

/-- `Trie::find`: `None` straight away on an empty trie, otherwise encode
and descend. -/
def Trie.find {T : Type} (tr : Trie T) (s : List Char) : PRes (Option T) :=
  if tr.is_empty then .ok none
  else
    match tr.preprocess_seq s with
    | .panicked m => .panicked m
    | .ok seq => Trie.findRec tr seq tr.root

/-- `Trie::_delete`.  The returned `Bool` reports "this node was removed
from the arena" to the caller.  Two behaviours of the source are modelled
verbatim because claims C1 and C2 turn on them:
* after a deleted child, the parent clears `children[id]` where `id` is the
  child's arena identity — not the branch index `*next_idx` (out-of-bounds
  indexing panics);
* the ancestor-pruning branch checks only `can_delete`, with no
  `node.id != self.root` guard (that guard exists only in the terminal
  branch). -/
def Trie.deleteRec {T : Type} (tr : Trie T) (seq : List Nat) (nodeId : Nat) :
    TOut T (Bool × Option T) :=
  match tr.arena.get_node nodeId with
  | none => .panicked ("called unwrap on a None value")
  | some node =>
    match seq with
    | [] =>
      match node.payload with
      | none => .err ("sequence not found!") tr
      | some prev =>
        let node1 : TrieNode T := { node with payload := none }
        let tr1 : Trie T :=
          { tr with arena := tr.arena.set_node nodeId node1, size := tr.size - 1 }
        if node1.id ≠ tr.root ∧ node1.can_delete then
          match tr1.arena.delete_node node1.id with
          | .error _ => .panicked ("could not delete node")
          | .ok a2 => .ok (true, some prev) { tr1 with arena := a2 }
        else .ok (false, some prev) tr1
    | nextIdx :: remainder =>
      match node.children.get? nextIdx with
      | none => .panicked ("index out of bounds")
      | some none => .err ("sequence not found!") tr
      | some (some id) =>
        match Trie.deleteRec tr remainder id with
        | .panicked m => .panicked m
        | .err e tr' => .err e tr'
        | .ok (childDeleted, payload) tr' =>
          match tr'.arena.get_node nodeId with
          | none => .panicked ("node cell unreachable")
          | some nodeNow =>
            if childDeleted then
              match nodeNow.children.get? id with
              | none => .panicked ("index out of bounds")
              | some _ =>
                let nodeNext : TrieNode T := { nodeNow with children := nodeNow.children.set id none }
                let tr2 : Trie T := { tr' with arena := tr'.arena.set_node nodeId nodeNext }
                if nodeNext.can_delete then
                  match tr2.arena.delete_node nodeId with
                  | .error _ => .panicked ("could not delete node")
                  | .ok a2 => .ok (true, payload) { tr2 with arena := a2 }
                else .ok (false, payload) tr2
            else
              if nodeNow.can_delete then
                match tr'.arena.delete_node nodeId with
                | .error _ => .panicked ("could not delete node")
                | .ok a2 => .ok (true, payload) { tr' with arena := a2 }
              else .ok (false, payload) tr'

/-- `Trie::delete`: `NotFound` on an empty trie, otherwise encode, run
`_delete` from the root and drop the child-deleted flag. -/
def Trie.delete {T : Type} (tr : Trie T) (s : List Char) : TOut T (Option T) :=
  if tr.is_empty then .err ("sequence not found because container is empty!") tr
  else
    match tr.preprocess_seq s with
    | .panicked m => .panicked m
    | .ok seq =>
      match Trie.deleteRec tr seq tr.root with
      | .ok r tr' => .ok r.2 tr'
      | .err e tr' => .err e tr'
      | .panicked m => .panicked m

/-- Extract the resulting trie state of an outcome, with a fallback for the
panic case (used only to name intermediate states in concrete scenarios). -/
def TOut.stateD {T α : Type} (r : TOut T α) (d : Trie T) : Trie T :=
  match r with
  | .ok _ t => t
  | .err _ t => t
  | .panicked _ => d

/-- Validity of a grammar: every branch index it can emit is below the
branch-array arity `seq().len()` (true of every `Grammar::from` result). -/
def GrammarWF (g : Grammar) : Prop :=
  ∀ kv ∈ g.mapping, kv.2 < g.seq.length

/-- Per-node well-formedness of a trie's arena: each entry is keyed by its
node's own id, ids are below the issue counter, branch arrays have the
grammar's arity, and every populated branch slot resolves. -/
def Trie.nodesWF {T : Type} (tr : Trie T) : Prop :=
  ∀ kv ∈ tr.arena.storage,
    kv.2.id = kv.1 ∧ kv.1 < tr.arena.id_counter ∧
    kv.2.arity = tr.grammar.seq.length ∧
    kv.2.children.length = tr.grammar.seq.length ∧
    ∀ oc ∈ kv.2.children, oc.all (fun c => (tr.arena.get_node c).isSome) = true

/-- Well-formedness of a trie state reachable by inserts: resolvable root,
well-formed nodes, and a size counter equal to the number of terminal
nodes. -/
def Trie.WF {T : Type} (tr : Trie T) : Prop :=
  (tr.arena.get_node tr.root).isSome = true ∧ tr.nodesWF ∧
  tr.size = (tr.arena.storage.filter (fun kv => kv.2.payload.isSome)).length

instance {T : Type} (tr : Trie T) : Decidable tr.nodesWF := by
  unfold Trie.nodesWF
  infer_instance

instance {T : Type} (tr : Trie T) : Decidable tr.WF := by
  unfold Trie.WF
  infer_instance

instance (g : Grammar) : Decidable (GrammarWF g) := by
  unfold GrammarWF
  infer_instance

/-! ## Concrete scenarios used by counterexamples and witnesses -/

/-- Two-letter case-sensitive grammar: mapping is b ↦ 0, a ↦ 1 (the source
sorts the alphabet descending before assigning dense indices). -/
def gAB : Grammar := Grammar.fromStr ("ab".toList) Case.sensitive

/-- Three-letter case-sensitive grammar: c ↦ 0, b ↦ 1, a ↦ 2. -/
def gABC : Grammar := Grammar.fromStr ("abc".toList) Case.sensitive

/-- Empty trie over `gAB`. -/
def c2t0 : Trie Nat := Trie.new gAB

/-- `c2t0` after `insert("a", 5)` (succeeds; the node for "a" gets arena id 1,
stored under branch index 1). -/
def c2t1 : Trie Nat := ((c2t0.insert ("a".toList) 5).stateD c2t0)

/-- `c2t1` after `delete("a")` — the delete succeeds and, because the pruning
recursion lacks a root guard, removes the root from the arena. -/
def c2t2 : Trie Nat := ((c2t1.delete ("a".toList)).stateD c2t1)

/-- Empty trie over `gABC`. -/
def c1t0 : Trie Nat := Trie.new gABC

/-- `c1t0` after `insert("ca", 7)`: path root(0) → node 1 (slot 0) →
node 2 (slot 2, terminal). -/
def c1t1 : Trie Nat := ((c1t0.insert ("ca".toList) 7).stateD c1t0)

/-- `c1t1` after `delete("ca")`: returns Ok, but the root keeps a branch
slot pointing at the deleted node 1. -/
def c1t2 : Trie Nat := ((c1t1.delete ("ca".toList)).stateD c1t1)

/-- A well-formed trie over `gAB` (empty root node, no terminals) whose id
counter sits one step before the `usize` wrap: the state the arena reaches
after its counter has been advanced to `usize::MAX`.  Inserting a two-letter
key here must allocate twice; the second allocation receives the wrapped
identity 0, which collides with the root's entry. -/
def c8wrapTrie : Trie Nat :=
  ⟨⟨[(0, ⟨0, none, 2, [none, none]⟩)], usizeSize - 1⟩, gAB, 0, 0⟩

/-- Quadtree scenario bbox for witnesses. -/
def qwBox : BBox2D := ⟨⟨0, 0⟩, ⟨10, 10⟩⟩

/-- Quadtree scenario insert list for witnesses. -/
def qwOps : List (Vec2 × Nat) := [(⟨1, 1⟩, 3)]

/-- The trie state right after `_insert_apply` allocates a fresh child of
`node` (stored at `nodeId`) in branch slot `idx`: the child takes the next
identity, the counter advances, and the parent's slot is set (proof
scaffolding naming an intermediate state of `Trie.insertApplyRec`). -/
def Trie.allocChild {T : Type} (tr : Trie T) (nodeId : Nat) (node : TrieNode T) (idx : Nat) :
    Trie T :=
  let child := TrieNode.newNode tr.arena.id_counter none node.arity
  let a2 : Arena (TrieNode T) :=
    Arena.mk ((tr.arena.id_counter, child) :: tr.arena.storage) ((tr.arena.id_counter + 1) % usizeSize)
  let node' : TrieNode T := { node with children := node.children.set idx (some tr.arena.id_counter) }
  { tr with arena := a2.set_node nodeId node' }

/-! ## Geometry lemmas -/

theorem contains_iff (b : BBox2D) (p : Vec2) : b.contains p = true ↔ b.containsP p := by
  simp [BBox2D.contains, BBox2D.containsP]

theorem containsP_elim {b : BBox2D} {p : Vec2} (h : b.containsP p) :
    b.min.x ≤ p.x ∧ b.min.y ≤ p.y ∧ p.x < b.max.x ∧ p.y < b.max.y := by
  obtain ⟨⟨h1, h2⟩, h3, h4⟩ := h
  exact ⟨h1, h2, h3, h4⟩

theorem containsP_intro {b : BBox2D} {p : Vec2} (h1 : b.min.x ≤ p.x) (h2 : b.min.y ≤ p.y)
    (h3 : p.x < b.max.x) (h4 : p.y < b.max.y) : b.containsP p :=
  ⟨⟨h1, h2⟩, h3, h4⟩

/-- Exactly one of the four subdivision quadrants contains any point of the
parent box; the quadrant boxes are half-open, so there is no
double-containment at the pivot lines. (No hypothesis on the pivot is
needed for coverage/disjointness.) -/
theorem subdivide_locate (b : BBox2D) (m p : Vec2) (h : b.containsP p) :
    ((b.subdivide m).1.containsP p ∧ ¬ (b.subdivide m).2.1.containsP p ∧
       ¬ (b.subdivide m).2.2.1.containsP p ∧ ¬ (b.subdivide m).2.2.2.containsP p) ∨
    (¬ (b.subdivide m).1.containsP p ∧ (b.subdivide m).2.1.containsP p ∧
       ¬ (b.subdivide m).2.2.1.containsP p ∧ ¬ (b.subdivide m).2.2.2.containsP p) ∨
    (¬ (b.subdivide m).1.containsP p ∧ ¬ (b.subdivide m).2.1.containsP p ∧
       (b.subdivide m).2.2.1.containsP p ∧ ¬ (b.subdivide m).2.2.2.containsP p) ∨
    (¬ (b.subdivide m).1.containsP p ∧ ¬ (b.subdivide m).2.1.containsP p ∧
       ¬ (b.subdivide m).2.2.1.containsP p ∧ (b.subdivide m).2.2.2.containsP p) := by
  obtain ⟨h1, h2, h3, h4⟩ := containsP_elim h
  simp only [BBox2D.subdivide, BBox2D.containsP, Vec2.leP, Vec2.ltP]
  rcases lt_or_le p.x m.x with hx | hx <;> rcases lt_or_le p.y m.y with hy | hy
  · refine Or.inl ⟨⟨⟨h1, h2⟩, hx, hy⟩, ?_, ?_, ?_⟩
    · rintro ⟨⟨a1, a2⟩, a3, a4⟩; linarith
    · rintro ⟨⟨a1, a2⟩, a3, a4⟩; linarith
    · rintro ⟨⟨a1, a2⟩, a3, a4⟩; linarith
  · refine Or.inr (Or.inr (Or.inr ⟨?_, ?_, ?_, ⟨⟨h1, hy⟩, hx, h4⟩⟩))
    · rintro ⟨⟨a1, a2⟩, a3, a4⟩; linarith
    · rintro ⟨⟨a1, a2⟩, a3, a4⟩; linarith
    · rintro ⟨⟨a1, a2⟩, a3, a4⟩; linarith
  · refine Or.inr (Or.inl ⟨?_, ⟨⟨hx, h2⟩, h3, hy⟩, ?_, ?_⟩)
    · rintro ⟨⟨a1, a2⟩, a3, a4⟩; linarith
    · rintro ⟨⟨a1, a2⟩, a3, a4⟩; linarith
    · rintro ⟨⟨a1, a2⟩, a3, a4⟩; linarith
  · refine Or.inr (Or.inr (Or.inl ⟨?_, ?_, ⟨⟨hx, hy⟩, h3, h4⟩, ?_⟩))
    · rintro ⟨⟨a1, a2⟩, a3, a4⟩; linarith
    · rintro ⟨⟨a1, a2⟩, a3, a4⟩; linarith
    · rintro ⟨⟨a1, a2⟩, a3, a4⟩; linarith

/-- Each subdivision quadrant is contained in the parent box, provided the
pivot itself lies in the parent box. -/
theorem subdivide_subset (b : BBox2D) (m p : Vec2) (hm : b.containsP m)
    (h : (b.subdivide m).1.containsP p ∨ (b.subdivide m).2.1.containsP p ∨
         (b.subdivide m).2.2.1.containsP p ∨ (b.subdivide m).2.2.2.containsP p) :
    b.containsP p := by
  obtain ⟨m1, m2, m3, m4⟩ := containsP_elim hm
  simp only [BBox2D.subdivide, BBox2D.containsP, Vec2.leP, Vec2.ltP] at h
  rcases h with ⟨⟨a1, a2⟩, a3, a4⟩ | ⟨⟨a1, a2⟩, a3, a4⟩ | ⟨⟨a1, a2⟩, a3, a4⟩ | ⟨⟨a1, a2⟩, a3, a4⟩ <;>
    exact containsP_intro (by linarith) (by linarith) (by linarith) (by linarith)

/-- Two boxes sharing a common point (in the half-open sense) intersect in
the closed-interval sense tested by `BBox2D::intersects`: the pruning test
of `_find_within` never discards a subtree holding a point of the query
box. -/
theorem intersects_of_mem (b q : BBox2D) (p : Vec2) (hb : b.containsP p)
    (hq : q.containsP p) : b.intersects q = true := by
  obtain ⟨b1, b2, b3, b4⟩ := containsP_elim hb
  obtain ⟨q1, q2, q3, q4⟩ := containsP_elim hq
  simp only [BBox2D.intersects, rangeIntersects, BBox2D.xrange, BBox2D.yrange,
    Bool.and_eq_true, decide_eq_true_eq]
  exact ⟨⟨by linarith, by linarith⟩, ⟨by linarith, by linarith⟩⟩

/-! ## Quadtree structural lemmas -/

theorem quadInsertEmpty_bbox {P : Type} (b : BBox2D) (e : Vec2 × P) :
    (quadInsertEmpty b e).2.bboxOf = b := by
  unfold quadInsertEmpty
  split <;> rfl

/-- Coherence of the specialised empty-child insert with the general one. -/
theorem insertQ_leaf_none {P : Type} (b : BBox2D) (e : Vec2 × P) :
    Quad.insertQ (.leaf b none) e = quadInsertEmpty b e := by
  unfold Quad.insertQ quadInsertEmpty
  split <;> rfl

theorem insertQ_bbox {P : Type} (t : Quad P) (e : Vec2 × P) :
    (t.insertQ e).2.bboxOf = t.bboxOf := by
  cases t <;> simp only [Quad.insertQ] <;> (repeat' split) <;> rfl

theorem quadInsertEmpty_fst {P : Type} (b : BBox2D) (e : Vec2 × P) :
    (quadInsertEmpty b e).1 = b.contains e.1 := by
  unfold quadInsertEmpty
  split <;> simp_all

theorem quadInsertEmpty_true {P : Type} {b : BBox2D} {e : Vec2 × P}
    (h : (quadInsertEmpty b e).1 = true) : (quadInsertEmpty b e).2 = .leaf b (some e) := by
  unfold quadInsertEmpty at *
  split at h <;> simp_all

theorem quadInsertEmpty_false {P : Type} {b : BBox2D} {e : Vec2 × P}
    (h : (quadInsertEmpty b e).1 = false) : (quadInsertEmpty b e).2 = .leaf b none := by
  unfold quadInsertEmpty at *
  split at h <;> simp_all

theorem insertQ_not_contains {P : Type} {t : Quad P} {e : Vec2 × P}
    (h : t.bboxOf.contains e.1 = false) : t.insertQ e = (false, t) := by
  cases t <;> simp_all [Quad.insertQ, Quad.bboxOf]

theorem stored_mem_bbox {P : Type} (t : Quad P) (hinv : t.inv) :
    ∀ x ∈ t.stored, t.bboxOf.containsP x.1 := by
  induction t with
  | leaf b pt =>
    intro x hx
    simp only [Quad.inv] at hinv
    cases pt with
    | none => simp [Quad.stored, Option.toList] at hx
    | some q =>
      simp only [Quad.stored, Option.toList_some, List.mem_singleton] at hx
      subst hx
      exact hinv x rfl
  | branch b pt sw se ne nw ihsw ihse ihne ihnw =>
    intro x hx
    simp only [Quad.inv] at hinv
    obtain ⟨q, hpt, hq, hbsw, hbse, hbne, hbnw, isw, ise, ine, inw⟩ := hinv
    subst hpt
    simp only [Quad.stored, Option.toList_some, List.append_assoc, List.mem_append,
      List.mem_singleton] at hx
    show b.containsP x.1
    rcases hx with hx | hx | hx | hx | hx
    · subst hx; exact hq
    · exact subdivide_subset b q.1 x.1 hq (Or.inl (hbsw ▸ ihsw isw x hx))
    · exact subdivide_subset b q.1 x.1 hq (Or.inr (Or.inl (hbse ▸ ihse ise x hx)))
    · exact subdivide_subset b q.1 x.1 hq (Or.inr (Or.inr (Or.inl (hbne ▸ ihne ine x hx))))
    · exact subdivide_subset b q.1 x.1 hq (Or.inr (Or.inr (Or.inr (hbnw ▸ ihnw inw x hx))))

/-- An insert that reports `false` leaves the tree unchanged (the observable
content of "returns false without mutation"). -/
theorem insertQ_false_eq {P : Type} (t : Quad P) (e : Vec2 × P)
    (h : (t.insertQ e).1 = false) : (t.insertQ e).2 = t := by
  induction t with
  | leaf b pt =>
    by_cases hc : b.contains e.1 = true
    · cases pt with
      | none => simp [Quad.insertQ, hc] at h
      | some q =>
        by_cases hd : q.1 = e.1
        · simp [Quad.insertQ, hc, hd]
        · exfalso
          have hcp : b.containsP e.1 := (contains_iff b e.1).mp hc
          have hloc := subdivide_locate b q.1 e.1 hcp
          simp only [Quad.insertQ] at h
          rw [if_pos hc] at h
          rw [if_neg hd] at h
          split at h
          · simp at h
          · split at h
            · simp at h
            · split at h
              · simp at h
              · rename_i h1 h2 h3
                have e4 : (quadInsertEmpty ((b.subdivide q.1).2.2.2) e).1 = false := h
                have n1 : ¬ (b.subdivide q.1).1.containsP e.1 := by
                  intro hp
                  exact h1 (by rw [quadInsertEmpty_fst]; exact (contains_iff _ _).mpr hp)
                have n2 : ¬ (b.subdivide q.1).2.1.containsP e.1 := by
                  intro hp
                  exact h2 (by rw [quadInsertEmpty_fst]; exact (contains_iff _ _).mpr hp)
                have n3 : ¬ (b.subdivide q.1).2.2.1.containsP e.1 := by
                  intro hp
                  exact h3 (by rw [quadInsertEmpty_fst]; exact (contains_iff _ _).mpr hp)
                have n4 : ¬ (b.subdivide q.1).2.2.2.containsP e.1 := by
                  intro hp
                  rw [quadInsertEmpty_fst, (contains_iff _ _).mpr hp] at e4
                  simp at e4
                rcases hloc with ⟨c, _, _, _⟩ | ⟨_, c, _, _⟩ | ⟨_, _, c, _⟩ | ⟨_, _, _, c⟩
                · exact n1 c
                · exact n2 c
                · exact n3 c
                · exact n4 c
    · simp [Quad.insertQ, hc]
  | branch b pt sw se ne nw ihsw ihse ihne ihnw =>
    by_cases hc : b.contains e.1 = true
    · cases pt with
      | none => simp [Quad.insertQ, hc] at h
      | some q =>
        by_cases hd : q.1 = e.1
        · simp [Quad.insertQ, hc, hd]
        · simp only [Quad.insertQ] at h ⊢
          rw [if_pos hc] at h ⊢
          rw [if_neg hd] at h ⊢
          split at h
          · simp at h
          · split at h
            · simp at h
            · split at h
              · simp at h
              · rename_i h1 h2 h3
                rw [if_neg h1, if_neg h2, if_neg h3]
                have e1 := ihsw (by simpa using h1)
                have e2 := ihse (by simpa using h2)
                have e3 := ihne (by simpa using h3)
                have e4 := ihnw h
                simp [e1, e2, e3, e4]
    · simp [Quad.insertQ, hc]

/-- A successful insert splices exactly the new element into the pre-order
stored list: `stored` becomes `l1 ++ e :: l2` where it was `l1 ++ l2`. -/
theorem insertQ_true_stored {P : Type} (t : Quad P) (e : Vec2 × P)
    (h : (t.insertQ e).1 = true) :
    ∃ l1 l2, t.stored = l1 ++ l2 ∧ (t.insertQ e).2.stored = l1 ++ e :: l2 := by
  induction t with
  | leaf b pt =>
    by_cases hc : b.contains e.1 = true
    · cases pt with
      | none =>
        refine ⟨[], [], by simp [Quad.stored, Option.toList], ?_⟩
        simp [Quad.insertQ, hc, Quad.stored]
      | some q =>
        by_cases hd : q.1 = e.1
        · simp [Quad.insertQ, hc, hd] at h
        · refine ⟨[q], [], by simp [Quad.stored], ?_⟩
          simp only [Quad.insertQ] at h ⊢
          rw [if_pos hc, if_neg hd] at h ⊢
          split at h
          · rename_i h1
            rw [if_pos h1, quadInsertEmpty_true h1]
            simp [Quad.stored]
          · rename_i h1
            split at h
            · rename_i h2
              rw [if_neg h1, if_pos h2, quadInsertEmpty_false (by simpa using h1),
                quadInsertEmpty_true h2]
              simp [Quad.stored]
            · rename_i h2
              split at h
              · rename_i h3
                rw [if_neg h1, if_neg h2, if_pos h3, quadInsertEmpty_false (by simpa using h1),
                  quadInsertEmpty_false (by simpa using h2), quadInsertEmpty_true h3]
                simp [Quad.stored]
              · rename_i h3
                have h4 : (quadInsertEmpty ((b.subdivide q.1).2.2.2) e).1 = true := h
                rw [if_neg h1, if_neg h2, if_neg h3, quadInsertEmpty_false (by simpa using h1),
                  quadInsertEmpty_false (by simpa using h2),
                  quadInsertEmpty_false (by simpa using h3), quadInsertEmpty_true h4]
                simp [Quad.stored]
    · simp [Quad.insertQ, hc] at h
  | branch b pt sw se ne nw ihsw ihse ihne ihnw =>
    by_cases hc : b.contains e.1 = true
    · cases pt with
      | none =>
        refine ⟨[], sw.stored ++ se.stored ++ ne.stored ++ nw.stored,
          by simp [Quad.stored, Option.toList, List.append_assoc], ?_⟩
        simp [Quad.insertQ, hc, Quad.stored, List.append_assoc]
      | some q =>
        by_cases hd : q.1 = e.1
        · simp [Quad.insertQ, hc, hd] at h
        · simp only [Quad.insertQ] at h ⊢
          rw [if_pos hc, if_neg hd] at h ⊢
          split at h
          · rename_i h1
            obtain ⟨l1, l2, hs1, hs2⟩ := ihsw h1
            refine ⟨q :: l1, l2 ++ se.stored ++ ne.stored ++ nw.stored, ?_, ?_⟩
            · simp [Quad.stored, hs1, List.append_assoc]
            · rw [if_pos h1]
              simp [Quad.stored, hs2, List.append_assoc]
          · rename_i h1
            have esw := insertQ_false_eq sw e (by simpa using h1)
            split at h
            · rename_i h2
              obtain ⟨l1, l2, hs1, hs2⟩ := ihse h2
              refine ⟨q :: (sw.stored ++ l1), l2 ++ ne.stored ++ nw.stored, ?_, ?_⟩
              · simp [Quad.stored, hs1, List.append_assoc]
              · rw [if_neg h1, if_pos h2, esw]
                simp [Quad.stored, hs2, List.append_assoc]
            · rename_i h2
              have ese := insertQ_false_eq se e (by simpa using h2)
              split at h
              · rename_i h3
                obtain ⟨l1, l2, hs1, hs2⟩ := ihne h3
                refine ⟨q :: (sw.stored ++ se.stored ++ l1), l2 ++ nw.stored, ?_, ?_⟩
                · simp [Quad.stored, hs1, List.append_assoc]
                · rw [if_neg h1, if_neg h2, if_pos h3, esw, ese]
                  simp [Quad.stored, hs2, List.append_assoc]
              · rename_i h3
                have ene := insertQ_false_eq ne e (by simpa using h3)
                have h4 : (nw.insertQ e).1 = true := h
                obtain ⟨l1, l2, hs1, hs2⟩ := ihnw h4
                refine ⟨q :: (sw.stored ++ se.stored ++ ne.stored ++ l1), l2, ?_, ?_⟩
                · simp [Quad.stored, hs1, List.append_assoc]
                · rw [if_neg h1, if_neg h2, if_neg h3, esw, ese, ene]
                  simp [Quad.stored, hs2, List.append_assoc]
    · simp [Quad.insertQ, hc] at h

theorem contains_eq_false_iff (b : BBox2D) (p : Vec2) :
    b.contains p = false ↔ ¬ b.containsP p := by
  simp [BBox2D.contains, BBox2D.containsP]


theorem leaf_none_inv {P : Type} (b : BBox2D) :
    (Quad.leaf b (none : Option (Vec2 × P))).inv := by
  intro x hx
  cases hx

theorem leaf_inv_elim {P : Type} {b : BBox2D} {pt : Option (Vec2 × P)}
    (h : (Quad.leaf b pt).inv) : ∀ x, pt = some x → b.containsP x.1 := h

theorem branch_inv_intro {P : Type} {b : BBox2D} {q : Vec2 × P} {sw se ne nw : Quad P}
    (hq : b.containsP q.1)
    (h1 : sw.bboxOf = (b.subdivide q.1).1) (h2 : se.bboxOf = (b.subdivide q.1).2.1)
    (h3 : ne.bboxOf = (b.subdivide q.1).2.2.1) (h4 : nw.bboxOf = (b.subdivide q.1).2.2.2)
    (i1 : sw.inv) (i2 : se.inv) (i3 : ne.inv) (i4 : nw.inv) :
    (Quad.branch b (some q) sw se ne nw).inv :=
  ⟨q, rfl, hq, h1, h2, h3, h4, i1, i2, i3, i4⟩

theorem quadInsertEmpty_inv {P : Type} (b : BBox2D) (e : Vec2 × P) :
    (quadInsertEmpty b e).2.inv := by
  unfold quadInsertEmpty
  split
  · rename_i hcb
    intro x hx
    cases hx
    exact (contains_iff _ _).mp hcb
  · exact leaf_none_inv b

/-- Insertion preserves the structural invariant. -/
theorem insertQ_inv {P : Type} (t : Quad P) (e : Vec2 × P) (hinv : t.inv) :
    (t.insertQ e).2.inv := by
  induction t with
  | leaf b pt =>
    by_cases hc : b.contains e.1 = true
    · cases pt with
      | none =>
        simp only [Quad.insertQ]
        rw [if_pos hc]
        intro x hx
        cases hx
        exact (contains_iff _ _).mp hc
      | some q =>
        by_cases hd : q.1 = e.1
        · simp only [Quad.insertQ]
          rw [if_pos hc, if_pos hd]
          exact hinv
        · have hq : b.containsP q.1 := leaf_inv_elim hinv q rfl
          simp only [Quad.insertQ]
          rw [if_pos hc, if_neg hd]
          split
          · exact branch_inv_intro hq (quadInsertEmpty_bbox _ _) rfl rfl rfl
              (quadInsertEmpty_inv _ _) (leaf_none_inv _) (leaf_none_inv _) (leaf_none_inv _)
          · split
            · exact branch_inv_intro hq (quadInsertEmpty_bbox _ _) (quadInsertEmpty_bbox _ _)
                rfl rfl (quadInsertEmpty_inv _ _) (quadInsertEmpty_inv _ _) (leaf_none_inv _)
                (leaf_none_inv _)
            · split
              · exact branch_inv_intro hq (quadInsertEmpty_bbox _ _) (quadInsertEmpty_bbox _ _)
                  (quadInsertEmpty_bbox _ _) rfl (quadInsertEmpty_inv _ _)
                  (quadInsertEmpty_inv _ _) (quadInsertEmpty_inv _ _) (leaf_none_inv _)
              · exact branch_inv_intro hq (quadInsertEmpty_bbox _ _) (quadInsertEmpty_bbox _ _)
                  (quadInsertEmpty_bbox _ _) (quadInsertEmpty_bbox _ _) (quadInsertEmpty_inv _ _)
                  (quadInsertEmpty_inv _ _) (quadInsertEmpty_inv _ _) (quadInsertEmpty_inv _ _)
    · simp only [Quad.insertQ]
      rw [if_neg hc]
      exact hinv
  | branch b pt sw se ne nw ihsw ihse ihne ihnw =>
    obtain ⟨q, hpt, hq, hbsw, hbse, hbne, hbnw, isw, ise, ine, inw⟩ := hinv
    subst hpt
    by_cases hc : b.contains e.1 = true
    · by_cases hd : q.1 = e.1
      · simp only [Quad.insertQ]
        rw [if_pos hc, if_pos hd]
        exact branch_inv_intro hq hbsw hbse hbne hbnw isw ise ine inw
      · simp only [Quad.insertQ]
        rw [if_pos hc, if_neg hd]
        split
        · exact branch_inv_intro hq (by rw [insertQ_bbox]; exact hbsw) hbse hbne hbnw
            (ihsw isw) ise ine inw
        · split
          · exact branch_inv_intro hq (by rw [insertQ_bbox]; exact hbsw)
              (by rw [insertQ_bbox]; exact hbse) hbne hbnw (ihsw isw) (ihse ise) ine inw
          · split
            · exact branch_inv_intro hq (by rw [insertQ_bbox]; exact hbsw)
                (by rw [insertQ_bbox]; exact hbse) (by rw [insertQ_bbox]; exact hbne) hbnw
                (ihsw isw) (ihse ise) (ihne ine) inw
            · exact branch_inv_intro hq (by rw [insertQ_bbox]; exact hbsw)
                (by rw [insertQ_bbox]; exact hbse) (by rw [insertQ_bbox]; exact hbne)
                (by rw [insertQ_bbox]; exact hbnw) (ihsw isw) (ihse ise) (ihne ine) (ihnw inw)
    · simp only [Quad.insertQ]
      rw [if_neg hc]
      exact branch_inv_intro hq hbsw hbse hbne hbnw isw ise ine inw

/-- Inserting a point that is already stored anywhere in the (invariant)
tree reports `false`. -/
theorem insertQ_mem_false {P : Type} (t : Quad P) (e : Vec2 × P) (hinv : t.inv)
    (hm : e.1 ∈ t.stored.map Prod.fst) : (t.insertQ e).1 = false := by
  induction t with
  | leaf b pt =>
    by_cases hc : b.contains e.1 = true
    · cases pt with
      | none => simp [Quad.stored, Option.toList] at hm
      | some q =>
        have hd : q.1 = e.1 := by
          simp only [Quad.stored, Option.toList_some, List.map_cons, List.map_nil,
            List.mem_singleton] at hm
          exact hm.symm
        simp [Quad.insertQ, hc, hd]
    · simp [Quad.insertQ, hc]
  | branch b pt sw se ne nw ihsw ihse ihne ihnw =>
    obtain ⟨q, hpt, hq, hbsw, hbse, hbne, hbnw, isw, ise, ine, inw⟩ := hinv
    subst hpt
    by_cases hc : b.contains e.1 = true
    · have hcp : b.containsP e.1 := (contains_iff _ _).mp hc
      by_cases hd : q.1 = e.1
      · simp [Quad.insertQ, hc, hd]
      · have hloc := subdivide_locate b q.1 e.1 hcp
        have hstored : (Quad.branch b (some q) sw se ne nw).stored.map Prod.fst =
            q.1 :: (sw.stored.map Prod.fst ++ se.stored.map Prod.fst ++
              ne.stored.map Prod.fst ++ nw.stored.map Prod.fst) := by
          simp [Quad.stored, List.append_assoc]
        rw [hstored] at hm
        simp only [List.mem_cons, List.mem_append] at hm
        have hcsw : e.1 ∈ sw.stored.map Prod.fst → (b.subdivide q.1).1.containsP e.1 := by
          intro hx
          obtain ⟨x, hxs, hxe⟩ := List.mem_map.mp hx
          exact hbsw ▸ (hxe ▸ stored_mem_bbox sw isw x hxs)
        have hcse : e.1 ∈ se.stored.map Prod.fst → (b.subdivide q.1).2.1.containsP e.1 := by
          intro hx
          obtain ⟨x, hxs, hxe⟩ := List.mem_map.mp hx
          exact hbse ▸ (hxe ▸ stored_mem_bbox se ise x hxs)
        have hcne : e.1 ∈ ne.stored.map Prod.fst → (b.subdivide q.1).2.2.1.containsP e.1 := by
          intro hx
          obtain ⟨x, hxs, hxe⟩ := List.mem_map.mp hx
          exact hbne ▸ (hxe ▸ stored_mem_bbox ne ine x hxs)
        have hcnw : e.1 ∈ nw.stored.map Prod.fst → (b.subdivide q.1).2.2.2.containsP e.1 := by
          intro hx
          obtain ⟨x, hxs, hxe⟩ := List.mem_map.mp hx
          exact hbnw ▸ (hxe ▸ stored_mem_bbox nw inw x hxs)
        simp only [Quad.insertQ]
        rw [if_pos hc, if_neg hd]
        rcases hm with hm | ((hm | hm) | hm) | hm
        · exact absurd hm.symm hd
        · have csw := hcsw hm
          rcases hloc with ⟨c1, n2, n3, n4⟩ | ⟨n1, _, _, _⟩ | ⟨n1, _, _, _⟩ | ⟨n1, _, _, _⟩
          · have b1 : (sw.insertQ e).1 = false := ihsw isw hm
            have b2 : (se.insertQ e).1 = false := by
              rw [insertQ_not_contains ((contains_eq_false_iff _ _).mpr (by rw [hbse]; exact n2))]
            have b3 : (ne.insertQ e).1 = false := by
              rw [insertQ_not_contains ((contains_eq_false_iff _ _).mpr (by rw [hbne]; exact n3))]
            have b4 : (nw.insertQ e).1 = false := by
              rw [insertQ_not_contains ((contains_eq_false_iff _ _).mpr (by rw [hbnw]; exact n4))]
            rw [if_neg (by simp [b1]), if_neg (by simp [b2]), if_neg (by simp [b3])]
            exact b4
          · exact absurd csw n1
          · exact absurd csw n1
          · exact absurd csw n1
        · have cse := hcse hm
          rcases hloc with ⟨_, n2, _, _⟩ | ⟨n1, c2, n3, n4⟩ | ⟨_, n2, _, _⟩ | ⟨_, n2, _, _⟩
          · exact absurd cse n2
          · have b1 : (sw.insertQ e).1 = false := by
              rw [insertQ_not_contains ((contains_eq_false_iff _ _).mpr (by rw [hbsw]; exact n1))]
            have b2 : (se.insertQ e).1 = false := ihse ise hm
            have b3 : (ne.insertQ e).1 = false := by
              rw [insertQ_not_contains ((contains_eq_false_iff _ _).mpr (by rw [hbne]; exact n3))]
            have b4 : (nw.insertQ e).1 = false := by
              rw [insertQ_not_contains ((contains_eq_false_iff _ _).mpr (by rw [hbnw]; exact n4))]
            rw [if_neg (by simp [b1]), if_neg (by simp [b2]), if_neg (by simp [b3])]
            exact b4
          · exact absurd cse n2
          · exact absurd cse n2
        · have cne := hcne hm
          rcases hloc with ⟨_, _, n3, _⟩ | ⟨_, _, n3, _⟩ | ⟨n1, n2, c3, n4⟩ | ⟨_, _, n3, _⟩
          · exact absurd cne n3
          · exact absurd cne n3
          · have b1 : (sw.insertQ e).1 = false := by
              rw [insertQ_not_contains ((contains_eq_false_iff _ _).mpr (by rw [hbsw]; exact n1))]
            have b2 : (se.insertQ e).1 = false := by
              rw [insertQ_not_contains ((contains_eq_false_iff _ _).mpr (by rw [hbse]; exact n2))]
            have b3 : (ne.insertQ e).1 = false := ihne ine hm
            have b4 : (nw.insertQ e).1 = false := by
              rw [insertQ_not_contains ((contains_eq_false_iff _ _).mpr (by rw [hbnw]; exact n4))]
            rw [if_neg (by simp [b1]), if_neg (by simp [b2]), if_neg (by simp [b3])]
            exact b4
          · exact absurd cne n3
        · have cnw := hcnw hm
          rcases hloc with ⟨_, _, _, n4⟩ | ⟨_, _, _, n4⟩ | ⟨_, _, _, n4⟩ | ⟨n1, n2, n3, c4⟩
          · exact absurd cnw n4
          · exact absurd cnw n4
          · exact absurd cnw n4
          · have b1 : (sw.insertQ e).1 = false := by
              rw [insertQ_not_contains ((contains_eq_false_iff _ _).mpr (by rw [hbsw]; exact n1))]
            have b2 : (se.insertQ e).1 = false := by
              rw [insertQ_not_contains ((contains_eq_false_iff _ _).mpr (by rw [hbse]; exact n2))]
            have b3 : (ne.insertQ e).1 = false := by
              rw [insertQ_not_contains ((contains_eq_false_iff _ _).mpr (by rw [hbne]; exact n3))]
            have b4 : (nw.insertQ e).1 = false := ihnw inw hm
            rw [if_neg (by simp [b1]), if_neg (by simp [b2]), if_neg (by simp [b3])]
            exact b4
    · simp [Quad.insertQ, hc]

theorem mem_stored_branch {P : Type} {x : Vec2 × P} {b : BBox2D} {pt : Option (Vec2 × P)}
    {sw se ne nw : Quad P} :
    x ∈ (Quad.branch b pt sw se ne nw).stored ↔
      x ∈ pt.toList ∨ x ∈ sw.stored ∨ x ∈ se.stored ∨ x ∈ ne.stored ∨ x ∈ nw.stored := by
  simp [Quad.stored, List.mem_append, or_assoc]

theorem findQ_none_of_not_contains {P : Type} {t : Quad P} {p : Vec2}
    (h : t.bboxOf.contains p = false) : t.findQ p = none := by
  cases t <;> simp_all [Quad.findQ, Quad.bboxOf]

/-- Soundness of `_find`: a hit is an exact match on a stored pair. -/
theorem findQ_sound {P : Type} (t : Quad P) (p : Vec2) (x : Vec2 × P)
    (h : t.findQ p = some x) : x.1 = p ∧ x ∈ t.stored := by
  induction t with
  | leaf b pt =>
    by_cases hc : b.contains p = true
    · cases pt with
      | none => simp [Quad.findQ, hc] at h
      | some q =>
        by_cases hqp : q.1 = p
        · simp [Quad.findQ, hc, hqp] at h
          subst h
          exact ⟨hqp, by simp [Quad.stored]⟩
        · simp [Quad.findQ, hc, hqp] at h
    · simp [Quad.findQ, hc] at h
  | branch b pt sw se ne nw ihsw ihse ihne ihnw =>
    by_cases hc : b.contains p = true
    · cases pt with
      | none => simp [Quad.findQ, hc] at h
      | some q =>
        by_cases hqp : q.1 = p
        · simp [Quad.findQ, hc, hqp] at h
          subst h
          exact ⟨hqp, mem_stored_branch.mpr (Or.inl (by simp))⟩
        · simp only [Quad.findQ] at h
          rw [if_pos hc, if_neg hqp] at h
          rcases hsw : sw.findQ p with _ | r
          · rcases hse : se.findQ p with _ | r
            · rcases hne : ne.findQ p with _ | r
              · simp only [hsw, hse, hne] at h
                obtain ⟨h1, h2⟩ := ihnw h
                exact ⟨h1, mem_stored_branch.mpr (Or.inr (Or.inr (Or.inr (Or.inr h2))))⟩
              · simp only [hsw, hse, hne] at h
                cases h
                obtain ⟨h1, h2⟩ := ihne hne
                exact ⟨h1, mem_stored_branch.mpr (Or.inr (Or.inr (Or.inr (Or.inl h2))))⟩
            · simp only [hsw, hse] at h
              cases h
              obtain ⟨h1, h2⟩ := ihse hse
              exact ⟨h1, mem_stored_branch.mpr (Or.inr (Or.inr (Or.inl h2)))⟩
          · simp only [hsw] at h
            cases h
            obtain ⟨h1, h2⟩ := ihsw hsw
            exact ⟨h1, mem_stored_branch.mpr (Or.inr (Or.inl h2))⟩
    · simp [Quad.findQ, hc] at h

/-- Completeness of `_find` on well-formed trees: every stored pair is found
by exact-match descent. -/
theorem findQ_complete {P : Type} (t : Quad P) (p : Vec2) (v : P) (hinv : t.inv)
    (hnd : (t.stored.map Prod.fst).Nodup) (hm : (p, v) ∈ t.stored) :
    t.findQ p = some (p, v) := by
  induction t with
  | leaf b pt =>
    cases pt with
    | none => simp [Quad.stored, Option.toList] at hm
    | some q =>
      simp only [Quad.stored, Option.toList_some, List.mem_singleton] at hm
      have hc : b.contains p = true := by
        have := leaf_inv_elim hinv q rfl
        rw [← hm] at this
        exact (contains_iff _ _).mpr this
      simp [Quad.findQ, hc, ← hm]
  | branch b pt sw se ne nw ihsw ihse ihne ihnw =>
    obtain ⟨q, hpt, hq, hbsw, hbse, hbne, hbnw, isw, ise, ine, inw⟩ := hinv
    subst hpt
    have hinv' : (Quad.branch b (some q) sw se ne nw).inv :=
      branch_inv_intro hq hbsw hbse hbne hbnw isw ise ine inw
    have hcp : b.containsP p := stored_mem_bbox _ hinv' _ hm
    have hcb : b.contains p = true := (contains_iff _ _).mpr hcp
    have hloc := subdivide_locate b q.1 p hcp
    have hstored : (Quad.branch b (some q) sw se ne nw).stored.map Prod.fst =
        q.1 :: (sw.stored.map Prod.fst ++ se.stored.map Prod.fst ++
          ne.stored.map Prod.fst ++ nw.stored.map Prod.fst) := by
      simp [Quad.stored, List.append_assoc]
    rw [hstored] at hnd
    obtain ⟨hqnotin, hnd'⟩ := List.nodup_cons.mp hnd
    have ndsw : (sw.stored.map Prod.fst).Nodup :=
      List.Nodup.sublist
        (((List.sublist_append_left _ _).trans (List.sublist_append_left _ _)).trans
          (List.sublist_append_left _ _)) hnd'
    have ndse : (se.stored.map Prod.fst).Nodup :=
      List.Nodup.sublist
        (((List.sublist_append_right _ _).trans (List.sublist_append_left _ _)).trans
          (List.sublist_append_left _ _)) hnd'
    have ndne : (ne.stored.map Prod.fst).Nodup :=
      List.Nodup.sublist
        ((List.sublist_append_right _ _).trans (List.sublist_append_left _ _)) hnd'
    have ndnw : (nw.stored.map Prod.fst).Nodup :=
      List.Nodup.sublist (List.sublist_append_right _ _) hnd'
    rcases mem_stored_branch.mp hm with hx | hx | hx | hx | hx
    · simp only [Option.toList_some, List.mem_singleton] at hx
      simp [Quad.findQ, hcb, ← hx]
    · -- stored in the SW subtree
      have hqp : ¬ q.1 = p := by
        intro hh
        refine hqnotin ?_
        rw [hh]
        have : p ∈ sw.stored.map Prod.fst := by
          simpa using List.mem_map_of_mem Prod.fst hx
        simp [this]
      simp only [Quad.findQ]
      rw [if_pos hcb, if_neg hqp]
      simp [ihsw isw ndsw hx]
    · have cse : (b.subdivide q.1).2.1.containsP p := hbse ▸ stored_mem_bbox se ise _ hx
      have hqp : ¬ q.1 = p := by
        intro hh
        refine hqnotin ?_
        rw [hh]
        have : p ∈ se.stored.map Prod.fst := by
          simpa using List.mem_map_of_mem Prod.fst hx
        simp [this]
      rcases hloc with ⟨_, n2, _, _⟩ | ⟨n1, _, _, _⟩ | ⟨_, n2, _, _⟩ | ⟨_, n2, _, _⟩
      · exact absurd cse n2
      · have fsw : sw.findQ p = none := findQ_none_of_not_contains
          ((contains_eq_false_iff _ _).mpr (by rw [hbsw]; exact n1))
        simp only [Quad.findQ]
        rw [if_pos hcb, if_neg hqp]
        simp [fsw, ihse ise ndse hx]
      · exact absurd cse n2
      · exact absurd cse n2
    · have cne : (b.subdivide q.1).2.2.1.containsP p := hbne ▸ stored_mem_bbox ne ine _ hx
      have hqp : ¬ q.1 = p := by
        intro hh
        refine hqnotin ?_
        rw [hh]
        have : p ∈ ne.stored.map Prod.fst := by
          simpa using List.mem_map_of_mem Prod.fst hx
        simp [this]
      rcases hloc with ⟨_, _, n3, _⟩ | ⟨_, _, n3, _⟩ | ⟨n1, n2, _, _⟩ | ⟨_, _, n3, _⟩
      · exact absurd cne n3
      · exact absurd cne n3
      · have fsw : sw.findQ p = none := findQ_none_of_not_contains
          ((contains_eq_false_iff _ _).mpr (by rw [hbsw]; exact n1))
        have fse : se.findQ p = none := findQ_none_of_not_contains
          ((contains_eq_false_iff _ _).mpr (by rw [hbse]; exact n2))
        simp only [Quad.findQ]
        rw [if_pos hcb, if_neg hqp]
        simp [fsw, fse, ihne ine ndne hx]
      · exact absurd cne n3
    · have cnw : (b.subdivide q.1).2.2.2.containsP p := hbnw ▸ stored_mem_bbox nw inw _ hx
      have hqp : ¬ q.1 = p := by
        intro hh
        refine hqnotin ?_
        rw [hh]
        have : p ∈ nw.stored.map Prod.fst := by
          simpa using List.mem_map_of_mem Prod.fst hx
        simp [this]
      rcases hloc with ⟨_, _, _, n4⟩ | ⟨_, _, _, n4⟩ | ⟨_, _, _, n4⟩ | ⟨n1, n2, n3, _⟩
      · exact absurd cnw n4
      · exact absurd cnw n4
      · exact absurd cnw n4
      · have fsw : sw.findQ p = none := findQ_none_of_not_contains
          ((contains_eq_false_iff _ _).mpr (by rw [hbsw]; exact n1))
        have fse : se.findQ p = none := findQ_none_of_not_contains
          ((contains_eq_false_iff _ _).mpr (by rw [hbse]; exact n2))
        have fne : ne.findQ p = none := findQ_none_of_not_contains
          ((contains_eq_false_iff _ _).mpr (by rw [hbne]; exact n3))
        simp only [Quad.findQ]
        rw [if_pos hcb, if_neg hqp]
        simp [fsw, fse, fne, ihnw inw ndnw hx]

/-- `_find_within` on a well-formed tree returns exactly the pre-order
stored list filtered by query containment: every stored point of the query
box, each once, in SW, SE, NE, NW pre-order; the closed-interval
intersection pruning never discards a qualifying subtree. -/
theorem findWithinQ_eq {P : Type} (t : Quad P) (qb : BBox2D) (hinv : t.inv) :
    t.findWithinQ qb = t.stored.filter (fun x => qb.contains x.1) := by
  induction t with
  | leaf b pt =>
    by_cases hi : b.intersects qb = true
    · cases pt with
      | none => simp [Quad.findWithinQ, hi, Quad.stored, Option.toList]
      | some q =>
        simp only [Quad.findWithinQ]
        rw [if_pos hi]
        simp only [Quad.stored, Option.toList_some, List.filter]
        cases hqb : qb.contains q.1 <;> simp [hqb]
    · cases pt with
      | none => simp [Quad.findWithinQ, hi, Quad.stored, Option.toList]
      | some q =>
        simp only [Quad.findWithinQ]
        rw [if_neg hi]
        cases hqb : qb.contains q.1 with
        | false => simp [Quad.stored, List.filter, hqb]
        | true =>
          exact absurd
            (intersects_of_mem b qb q.1 (leaf_inv_elim hinv q rfl) ((contains_iff _ _).mp hqb))
            hi
  | branch b pt sw se ne nw ihsw ihse ihne ihnw =>
    obtain ⟨q, hpt, hq, hbsw, hbse, hbne, hbnw, isw, ise, ine, inw⟩ := hinv
    subst hpt
    have hinv' : (Quad.branch b (some q) sw se ne nw).inv :=
      branch_inv_intro hq hbsw hbse hbne hbnw isw ise ine inw
    by_cases hi : b.intersects qb = true
    · simp only [Quad.findWithinQ]
      rw [if_pos hi]
      simp only [Quad.stored, Option.toList_some, List.filter_append, ihsw isw, ihse ise,
        ihne ine, ihnw inw, List.filter, List.append_assoc]
      cases hqb : qb.contains q.1 <;> simp [hqb]
    · simp only [Quad.findWithinQ]
      rw [if_neg hi]
      symm
      rw [List.filter_eq_nil_iff]
      intro x hx hpx
      exact hi (intersects_of_mem b qb x.1 (stored_mem_bbox _ hinv' x hx)
        ((contains_iff _ _).mp hpx))

theorem inv_childrenImplyPoint {P : Type} (t : Quad P) (hinv : t.inv) :
    t.childrenImplyPoint := by
  induction t with
  | leaf b pt => exact trivial
  | branch b pt sw se ne nw ihsw ihse ihne ihnw =>
    obtain ⟨q, hpt, hq, hbsw, hbse, hbne, hbnw, isw, ise, ine, inw⟩ := hinv
    subst hpt
    exact ⟨rfl, ihsw isw, ihse ise, ihne ine, ihnw inw⟩

theorem new_WF {P : Type} (bbox : BBox2D) : (PointQuadtree.new bbox : PointQuadtree P).WF := by
  refine ⟨leaf_none_inv bbox, ?_, ?_⟩ <;>
    simp [PointQuadtree.new, Quad.stored, Option.toList]

/-- Insertion preserves well-formedness of the tree object. -/
theorem insert_WF {P : Type} (t : PointQuadtree P) (p : Vec2) (v : P) (h : t.WF) :
    ((t.insert p v).2).WF := by
  obtain ⟨hinv, hnd, hsz⟩ := h
  rcases hb : (t.root.insertQ (p, v)).1 with _ | _
  · have heq := insertQ_false_eq t.root (p, v) hb
    simp only [PointQuadtree.insert, hb, Bool.false_eq_true, if_false]
    exact ⟨by rw [heq]; exact hinv, by rw [heq]; exact hnd, by rw [heq]; exact hsz⟩
  · have hnotmem : p ∉ t.root.stored.map Prod.fst := by
      intro hmem
      rw [insertQ_mem_false t.root (p, v) hinv hmem] at hb
      cases hb
    obtain ⟨l1, l2, hs1, hs2⟩ := insertQ_true_stored t.root (p, v) hb
    simp only [PointQuadtree.insert, hb, if_true]
    refine ⟨insertQ_inv t.root (p, v) hinv, ?_, ?_⟩
    · show (((t.root.insertQ (p, v)).2).stored.map Prod.fst).Nodup
      rw [hs2]
      have hperm : ((l1 ++ (p, v) :: l2).map Prod.fst).Perm
          (((p, v) :: (l1 ++ l2)).map Prod.fst) := (List.perm_middle).map Prod.fst
      rw [hperm.nodup_iff]
      simp only [List.map_cons]
      refine List.nodup_cons.mpr ⟨?_, ?_⟩
      · rw [← hs1]; exact hnotmem
      · rw [← hs1]; exact hnd
    · show t.size + 1 = ((t.root.insertQ (p, v)).2).stored.length
      rw [hs2, hsz, hs1]
      simp [List.length_append]
      omega
  
theorem buildFrom_WF {P : Type} :
    ∀ (ops : List (Vec2 × P)) (t : PointQuadtree P), t.WF →
      ((PointQuadtree.buildFrom t ops).1).WF := by
  intro ops
  induction ops with
  | nil => intro t h; exact h
  | cons op rest ih =>
    intro t h
    simp only [PointQuadtree.buildFrom]
    exact ih _ (insert_WF t op.1 op.2 h)

theorem build_WF {P : Type} (bbox : BBox2D) (ops : List (Vec2 × P)) :
    (PointQuadtree.build bbox ops).WF :=
  buildFrom_WF ops _ (new_WF bbox)

theorem insert_stored_mono {P : Type} (t : PointQuadtree P) (p : Vec2) (v : P)
    (x : Vec2 × P) (hx : x ∈ t.root.stored) : x ∈ ((t.insert p v).2).root.stored := by
  rcases hb : (t.root.insertQ (p, v)).1 with _ | _
  · simp only [PointQuadtree.insert, hb, Bool.false_eq_true, if_false]
    rw [insertQ_false_eq t.root (p, v) hb]
    exact hx
  · obtain ⟨l1, l2, hs1, hs2⟩ := insertQ_true_stored t.root (p, v) hb
    simp only [PointQuadtree.insert, hb, if_true]
    show x ∈ ((t.root.insertQ (p, v)).2).stored
    rw [hs2]
    rw [hs1] at hx
    rcases List.mem_append.mp hx with hx | hx
    · exact List.mem_append.mpr (Or.inl hx)
    · exact List.mem_append.mpr (Or.inr (List.mem_cons_of_mem _ hx))

theorem buildFrom_stored_mono {P : Type} :
    ∀ (ops : List (Vec2 × P)) (t : PointQuadtree P) (x : Vec2 × P),
      x ∈ t.root.stored → x ∈ ((PointQuadtree.buildFrom t ops).1).root.stored := by
  intro ops
  induction ops with
  | nil => intro t x hx; exact hx
  | cons op rest ih =>
    intro t x hx
    simp only [PointQuadtree.buildFrom]
    exact ih _ x (insert_stored_mono t op.1 op.2 x hx)

theorem insert_fst_sub {P : Type} (t : PointQuadtree P) (p : Vec2) (v : P) (z : Vec2)
    (hz : z ∈ ((t.insert p v).2).root.stored.map Prod.fst) :
    z ∈ t.root.stored.map Prod.fst ∨ z = p := by
  rcases hb : (t.root.insertQ (p, v)).1 with _ | _
  · simp only [PointQuadtree.insert, hb, Bool.false_eq_true, if_false] at hz
    rw [insertQ_false_eq t.root (p, v) hb] at hz
    exact Or.inl hz
  · obtain ⟨l1, l2, hs1, hs2⟩ := insertQ_true_stored t.root (p, v) hb
    simp only [PointQuadtree.insert, hb, if_true] at hz
    rw [hs2] at hz
    rw [hs1]
    obtain ⟨x, hxm, hxz⟩ := List.mem_map.mp hz
    rcases List.mem_append.mp hxm with hx | hx
    · exact Or.inl (by rw [← hxz]; exact List.mem_map_of_mem Prod.fst (List.mem_append.mpr (Or.inl hx)))
    · rcases List.mem_cons.mp hx with hx | hx
      · subst hx; exact Or.inr hxz.symm
      · exact Or.inl (by rw [← hxz]; exact List.mem_map_of_mem Prod.fst (List.mem_append.mpr (Or.inr hx)))

/-- Find-correctness along a build: every successfully inserted pair is found
afterwards with its exact payload, and points never inserted are not found. -/
theorem buildFrom_find {P : Type} :
    ∀ (ops : List (Vec2 × P)) (t : PointQuadtree P), t.WF →
      (∀ pr ∈ ops.zip (PointQuadtree.buildFrom t ops).2, pr.2 = true →
        ((PointQuadtree.buildFrom t ops).1).find pr.1.1 = some pr.1) ∧
      (∀ z : Vec2, z ∉ t.root.stored.map Prod.fst → (∀ op ∈ ops, op.1 ≠ z) →
        ((PointQuadtree.buildFrom t ops).1).find z = none) := by
  intro ops
  induction ops with
  | nil =>
    intro t hWF
    constructor
    · intro pr hpr
      simp [PointQuadtree.buildFrom] at hpr
    · intro z hz _
      show t.root.findQ z = none
      rcases hf : t.root.findQ z with _ | x
      · rfl
      · obtain ⟨h1, h2⟩ := findQ_sound t.root z x hf
        exact absurd (h1 ▸ List.mem_map_of_mem Prod.fst h2) hz
  | cons op rest ih =>
    intro t hWF
    have hWF' := insert_WF t op.1 op.2 hWF
    obtain ⟨ihf, ihn⟩ := ih (t.insert op.1 op.2).2 hWF'
    constructor
    · intro pr hpr hptrue
      simp only [PointQuadtree.buildFrom, List.zip_cons_cons, List.mem_cons] at hpr
      rcases hpr with hpr | hpr
      · subst hpr
        have hb : (t.root.insertQ (op.1, op.2)).1 = true := by
          rcases hb0 : (t.root.insertQ (op.1, op.2)).1 with _ | _
          · have h2 : (t.insert op.1 op.2).1 = true := hptrue
            simp only [PointQuadtree.insert, hb0, Bool.false_eq_true, if_false] at h2
          · rfl
        obtain ⟨l1, l2, hs1, hs2⟩ := insertQ_true_stored t.root (op.1, op.2) hb
        have hmem : (op.1, op.2) ∈ ((t.insert op.1 op.2).2).root.stored := by
          simp only [PointQuadtree.insert, hb, if_true]
          show (op.1, op.2) ∈ ((t.root.insertQ (op.1, op.2)).2).stored
          rw [hs2]
          exact List.mem_append.mpr (Or.inr (List.mem_cons_self _ _))
        have hfinal := buildFrom_stored_mono rest _ _ hmem
        have hWFf := buildFrom_WF rest _ hWF'
        show ((PointQuadtree.buildFrom (t.insert op.1 op.2).2 rest).1).root.findQ op.1 =
          some (op.1, op.2)
        exact findQ_complete _ op.1 op.2 hWFf.1 hWFf.2.1 hfinal
      · exact ihf pr hpr hptrue
    · intro z hz hops
      have hz' : z ∉ ((t.insert op.1 op.2).2).root.stored.map Prod.fst := by
        intro hmem
        rcases insert_fst_sub t op.1 op.2 z hmem with h | h
        · exact hz h
        · exact hops op (List.mem_cons_self _ _) h.symm
      exact ihn z hz' (fun o ho => hops o (List.mem_cons_of_mem _ ho))

/-- C6: after any build, every successfully inserted point is found with the
exact payload stored for it, and every point never inserted is not found. -/
theorem quadtree_find_returns_stored (P : Type) (bbox : BBox2D) (ops : List (Vec2 × P)) :
    (∀ pr ∈ ops.zip (PointQuadtree.buildFrom (PointQuadtree.new bbox) ops).2, pr.2 = true →
        (PointQuadtree.build bbox ops).find pr.1.1 = some pr.1) ∧
    (∀ z : Vec2, (∀ op ∈ ops, op.1 ≠ z) → (PointQuadtree.build bbox ops).find z = none) := by
  obtain ⟨h1, h2⟩ := buildFrom_find ops (PointQuadtree.new bbox) (new_WF bbox)
  exact ⟨h1, fun z hz =>
    h2 z (by simp [PointQuadtree.new, Quad.stored, Option.toList]) hz⟩

/-- Witness for C6 at concrete inputs: in the tree built from `[(1,1) ↦ 3]`,
`find (1,1)` returns the stored pair and `find (9,9)` returns nothing. -/
theorem quadtree_find_returns_stored_witness :
    (PointQuadtree.build qwBox qwOps).find ⟨1, 1⟩ = some (⟨1, 1⟩, 3) ∧
    (PointQuadtree.build qwBox qwOps).find ⟨9, 9⟩ = none :=
  ⟨(quadtree_find_returns_stored Nat qwBox qwOps).1 ((⟨1, 1⟩, 3), true) (by decide) rfl,
   (quadtree_find_returns_stored Nat qwBox qwOps).2 ⟨9, 9⟩ (by decide)⟩

/-- C7: `find_within(q)` returns exactly the stored points contained in `q`
(half-open containment), each exactly once, in the SW, SE, NE, NW pre-order
of the tree (the order of the pre-order `stored` list); pruning uses
closed-interval box intersection, which never excludes a subtree holding a
qualifying point (the filter equality subsumes this: no qualifying point is
dropped). -/
theorem quadtree_find_within_exact (P : Type) (bbox : BBox2D) (ops : List (Vec2 × P))
    (q : BBox2D) :
    (PointQuadtree.build bbox ops).find_within q =
      (PointQuadtree.build bbox ops).root.stored.filter (fun x => q.contains x.1) ∧
    (((PointQuadtree.build bbox ops).find_within q).map Prod.fst).Nodup := by
  have hWF := build_WF bbox ops
  have heq := findWithinQ_eq (PointQuadtree.build bbox ops).root q hWF.1
  refine ⟨heq, ?_⟩
  show (((PointQuadtree.build bbox ops).root.findWithinQ q).map Prod.fst).Nodup
  rw [heq]
  exact List.Nodup.sublist ((List.filter_sublist _).map Prod.fst) hWF.2.1

/-- C10: in every reachable quadtree state, a node with children present also
holds a resident point (which is why `_find`'s early `None` at a point-less
node cannot miss a stored point). -/
theorem quadtree_children_imply_point (P : Type) (bbox : BBox2D) (ops : List (Vec2 × P)) :
    ((PointQuadtree.build bbox ops).root).childrenImplyPoint :=
  inv_childrenImplyPoint _ (build_WF bbox ops).1

/-! ## Arena lemmas (claim C9) -/

theorem add_node_counter {N : Type} [HasId N] {a : Arena N} {n : N} {a' : Arena N}
    (h : a.add_node n = .ok a') : a'.id_counter = a.id_counter := by
  unfold Arena.add_node at h
  split at h
  · cases h
  · cases h; rfl

theorem delete_node_counter {N : Type} {a : Arena N} {id : Nat} {a' : Arena N}
    (h : a.delete_node id = .ok a') : a'.id_counter = a.id_counter := by
  unfold Arena.delete_node at h
  split at h
  · cases h; rfl
  · cases h

/-- A run issues exactly one identity per `newId` operation. -/
theorem runOps_issued_length {N : Type} [HasId N] :
    ∀ (ops : List (ArenaOp N)) (a : Arena N),
      (Arena.runOps a ops).2.length = ops.countP ArenaOp.isNewId := by
  intro ops
  induction ops with
  | nil =>
    intro a
    simp [Arena.runOps]
  | cons op rest ih =>
    intro a
    cases op with
    | addNode n =>
      simp only [Arena.runOps, Arena.runOp]
      rcases hadd : a.add_node n with msg | a'
      · simp only [hadd]
        simp [ih a, List.countP_cons, ArenaOp.isNewId]
      · simp only [hadd]
        simp [ih a', List.countP_cons, ArenaOp.isNewId]
    | deleteNode id =>
      simp only [Arena.runOps, Arena.runOp]
      rcases hdel : a.delete_node id with msg | a'
      · simp only [hdel]
        simp [ih a, List.countP_cons, ArenaOp.isNewId]
      · simp only [hdel]
        simp [ih a', List.countP_cons, ArenaOp.isNewId]
    | newId =>
      simp only [Arena.runOps, Arena.runOp, Arena.get_new_id]
      simp [ih, List.countP_cons, ArenaOp.isNewId]

/-- As long as the starting counter plus the number of identities the
sequence requests stays within the `usize` range, the wrap in `get_new_id`
never fires among the issued identities: they are all at least the starting
counter and strictly increase in issue order. -/
theorem runOps_ids_mono_bounded {N : Type} [HasId N] :
    ∀ (ops : List (ArenaOp N)) (a : Arena N),
      a.id_counter + ops.countP ArenaOp.isNewId ≤ usizeSize →
      (∀ i ∈ (Arena.runOps a ops).2, a.id_counter ≤ i) ∧
      (Arena.runOps a ops).2.Pairwise (· < ·) := by
  intro ops
  induction ops with
  | nil =>
    intro a _
    constructor <;> simp [Arena.runOps]
  | cons op rest ih =>
    intro a hbud
    cases op with
    | addNode n =>
      have hbud' : a.id_counter + rest.countP ArenaOp.isNewId ≤ usizeSize := by
        rw [List.countP_cons] at hbud
        simpa [ArenaOp.isNewId] using hbud
      simp only [Arena.runOps, Arena.runOp]
      rcases hadd : a.add_node n with msg | a'
      · simp only [hadd]
        obtain ⟨ih1, ih2⟩ := ih a hbud'
        exact ⟨by simpa using ih1, by simpa using ih2⟩
      · simp only [hadd]
        obtain ⟨ih1, ih2⟩ := ih a' (by rw [add_node_counter hadd]; exact hbud')
        rw [add_node_counter hadd] at ih1
        exact ⟨by simpa using ih1, by simpa using ih2⟩
    | deleteNode id =>
      have hbud' : a.id_counter + rest.countP ArenaOp.isNewId ≤ usizeSize := by
        rw [List.countP_cons] at hbud
        simpa [ArenaOp.isNewId] using hbud
      simp only [Arena.runOps, Arena.runOp]
      rcases hdel : a.delete_node id with msg | a'
      · simp only [hdel]
        obtain ⟨ih1, ih2⟩ := ih a hbud'
        exact ⟨by simpa using ih1, by simpa using ih2⟩
      · simp only [hdel]
        obtain ⟨ih1, ih2⟩ := ih a' (by rw [delete_node_counter hdel]; exact hbud')
        rw [delete_node_counter hdel] at ih1
        exact ⟨by simpa using ih1, by simpa using ih2⟩
    | newId =>
      have hcnt : a.id_counter + (rest.countP ArenaOp.isNewId + 1) ≤ usizeSize := by
        rw [List.countP_cons] at hbud
        simpa [ArenaOp.isNewId] using hbud
      simp only [Arena.runOps, Arena.runOp, Arena.get_new_id]
      by_cases hw : a.id_counter + 1 < usizeSize
      · have hmod : (a.id_counter + 1) % usizeSize = a.id_counter + 1 :=
          Nat.mod_eq_of_lt hw
        obtain ⟨ih1, ih2⟩ := ih ⟨a.storage, (a.id_counter + 1) % usizeSize⟩
          (by simp only [hmod]; omega)
        have ih1' : ∀ i ∈ (Arena.runOps
            (⟨a.storage, (a.id_counter + 1) % usizeSize⟩ : Arena N) rest).2,
            a.id_counter + 1 ≤ i := by
          intro i hi
          have h := ih1 i hi
          simpa [hmod] using h
        refine ⟨?_, ?_⟩
        · intro i hi
          simp only [Option.toList_some, List.cons_append, List.nil_append,
            List.mem_cons] at hi
          rcases hi with hi | hi
          · exact le_of_eq hi.symm
          · exact le_trans (Nat.le_succ _) (ih1' i hi)
        · simp only [Option.toList_some, List.cons_append, List.nil_append]
          refine List.pairwise_cons.mpr ⟨?_, ih2⟩
          intro i hi
          exact lt_of_lt_of_le (Nat.lt_succ_self _) (ih1' i hi)
      · have hrest0 : rest.countP ArenaOp.isNewId = 0 := by omega
        have hempty : (Arena.runOps
            (⟨a.storage, (a.id_counter + 1) % usizeSize⟩ : Arena N) rest).2 = [] := by
          have hlen := runOps_issued_length rest
            (⟨a.storage, (a.id_counter + 1) % usizeSize⟩ : Arena N)
          rw [hrest0] at hlen
          exact List.length_eq_zero.mp hlen
        refine ⟨?_, ?_⟩
        · intro i hi
          simp only [Option.toList_some, List.cons_append, List.nil_append, hempty,
            List.mem_singleton] at hi
          exact le_of_eq hi.symm
        · simp [hempty]

/-- A pure run of `n` `newId` operations issues the successive counter
values reduced modulo the `usize` range. -/
theorem runOps_replicate_newId {N : Type} [HasId N] :
    ∀ (n : Nat) (a : Arena N), a.id_counter < usizeSize →
      (Arena.runOps a (List.replicate n ArenaOp.newId)).2 =
        (List.range n).map (fun i => (a.id_counter + i) % usizeSize) := by
  intro n
  induction n with
  | zero =>
    intro a _
    simp [Arena.runOps]
  | succ m ih =>
    intro a ha
    rw [List.replicate_succ]
    simp only [Arena.runOps, Arena.runOp, Arena.get_new_id]
    have hlt : (a.id_counter + 1) % usizeSize < usizeSize :=
      Nat.mod_lt _ (by decide)
    rw [ih ⟨a.storage, (a.id_counter + 1) % usizeSize⟩ hlt]
    simp only [Option.toList_some, List.cons_append, List.nil_append]
    rw [List.range_succ_eq_map, List.map_cons, List.map_map]
    have hmap : ∀ i : Nat, ((a.id_counter + 1) % usizeSize + i) % usizeSize
        = ((fun i => (a.id_counter + i) % usizeSize) ∘ Nat.succ) i := by
      intro i
      simp only [Function.comp_apply]
      rw [Nat.mod_add_mod]
      congr 1
      omega
    simp only [hmap]
    congr 1
    simp [Nat.mod_eq_of_lt ha]

/-- C9 (counterexample to the claim without an issuance bound): running
`2^64 + 1` `newId` operations on a fresh arena issues the identity 0 twice —
`fetch_add` wraps the counter past `usize::MAX` back to 0 — so the issued
identities of this sequence are not pairwise strictly increasing. -/
theorem arena_new_ids_wrap_reuse :
    ¬ ((Arena.runOps (Arena.new : Arena (TrieNode Nat))
        (List.replicate (usizeSize + 1) ArenaOp.newId)).2).Pairwise (· < ·) := by
  intro hpair
  rw [runOps_replicate_newId (usizeSize + 1) Arena.new (by decide)] at hpair
  simp only [Arena.new, Nat.zero_add] at hpair
  have hnodup : ((List.range (usizeSize + 1)).map (fun i => i % usizeSize)).Nodup :=
    hpair.imp (fun h => Nat.ne_of_lt h)
  have h0 : (0 : Nat) ∈ List.range (usizeSize + 1) := List.mem_range.mpr (Nat.succ_pos _)
  have hW : usizeSize ∈ List.range (usizeSize + 1) :=
    List.mem_range.mpr (Nat.lt_succ_self _)
  have h0W := List.inj_on_of_nodup_map hnodup h0 hW (by simp)
  exact absurd h0W (by decide)

/-- C9 (amended: the counter is a wrapping `usize`, modelled as 64 bits, so
the guarantee holds exactly while the sequence requests at most `2^64`
identities): over any such operation sequence on a fresh arena instance,
each identity issued by `get_new_id` is strictly greater than every
previously issued identity — within that horizon identities are never
reused, even after deletes. -/
theorem arena_new_ids_strictly_increasing (N : Type) [HasId N] (ops : List (ArenaOp N))
    (hcount : ops.countP ArenaOp.isNewId ≤ usizeSize) :
    ((Arena.runOps (Arena.new : Arena N) ops).2).Pairwise (· < ·) :=
  (runOps_ids_mono_bounded ops Arena.new (by simpa [Arena.new] using hcount)).2

/-- Witness for C9 at a concrete input: issuing three identities (around a
delete) stays far below the wrap, and the issued identities strictly
increase. -/
theorem arena_new_ids_strictly_increasing_witness :
    ((Arena.runOps (Arena.new : Arena (TrieNode Nat))
        [ArenaOp.newId, ArenaOp.newId, ArenaOp.deleteNode 0, ArenaOp.newId]).2).Pairwise
      (· < ·) :=
  arena_new_ids_strictly_increasing (TrieNode Nat)
    [ArenaOp.newId, ArenaOp.newId, ArenaOp.deleteNode 0, ArenaOp.newId] (by decide)

/-! ## Trie delete/encoding divergences (claims C1–C4) -/

/-- C1 (code bug evidence): on the trie over the alphabet "abc" holding only
"ca", `delete("ca")` returns Ok, yet afterwards the root's branch slot 0
still holds identity 1 while node 1 has been removed from the arena — a
reachable branch slot refers to a deleted node, because `_delete` clears
`children[id]` (the child's arena identity) instead of
`children[*next_idx]` (the branch index). -/
theorem trie_delete_leaves_dangling_child_slot :
    c1t1.delete ("ca".toList) = TOut.ok (some 7) c1t2 ∧
    c1t2.root = 0 ∧
    c1t2.arena.get_node 0 = some ⟨0, none, 3, [some 1, none, none]⟩ ∧
    c1t2.arena.get_node 1 = none := by decide

/-- C2 (code bug evidence): on the trie over the alphabet "ab" holding only
"a" (whose node happens to get arena identity 1 = its branch index),
`delete("a")` succeeds and removes the ROOT from the arena — the
ancestor-pruning branch of `_delete` checks `can_delete` without the
`node.id != self.root` guard that the terminal branch has.  Afterwards the
root identity no longer resolves. -/
theorem trie_delete_removes_root_node :
    c2t1.delete ("a".toList) = TOut.ok (some 5) c2t2 ∧
    c2t2.root = 0 ∧
    c2t2.arena.get_node c2t2.root = none ∧
    c2t2.arena.storage = [] := by decide

/-- C3 (code bug evidence): deleting "a" and re-inserting it is not
observably equivalent to the original trie: the original answers
`find("a") = Some 5` with `len() = 1`, but after the delete (which pruned
the root, claim C2) the re-insert panics on the unresolvable root instead
of rebuilding the key. -/
theorem trie_delete_reinsert_panics :
    c2t1.find ("a".toList) = PRes.ok (some 5) ∧
    c2t1.len = 1 ∧
    c2t1.delete ("a".toList) = TOut.ok (some 5) c2t2 ∧
    c2t2.insert ("a".toList) 5 = TOut.panicked ("node doesnt exist!") := by decide

/-- C4 (code bug evidence): when the encoder rejects a symbol, `insert`
panics (aborts) instead of returning the encoder's error as a recoverable
result: `preprocess_seq` calls `panic!` on the `Err` of `to_indices`.
`find` and `delete` do the same whenever they reach the encoding step
(i.e. on a non-empty trie; on an empty trie they return early). -/
theorem trie_invalid_symbol_panics (T : Type) [Inhabited T] (tr : Trie T)
    (s : List Char) (t : T) (msg : String)
    (h : tr.grammar.to_indices s = .error msg) :
    tr.insert s t = .panicked msg ∧
    (tr.is_empty = false → tr.find s = .panicked msg) ∧
    (tr.is_empty = false → tr.delete s = .panicked msg) := by
  refine ⟨?_, ?_, ?_⟩
  · simp [Trie.insert, Trie.preprocess_seq, h]
  · intro hemp
    simp [Trie.find, Trie.preprocess_seq, h, hemp]
  · intro hemp
    simp [Trie.delete, Trie.preprocess_seq, h, hemp]

/-- Witness for C4: on the non-empty trie over "ab" holding "a", the
operations on the out-of-alphabet key "x" all panic with the encoder's
message. -/
theorem trie_invalid_symbol_panics_witness :
    c2t1.insert ("x".toList) 9 = TOut.panicked ("char is not part of grammar") ∧
    c2t1.find ("x".toList) = PRes.panicked ("char is not part of grammar") ∧
    c2t1.delete ("x".toList) = TOut.panicked ("char is not part of grammar") := by
  obtain ⟨h1, h2, h3⟩ := trie_invalid_symbol_panics Nat c2t1 ("x".toList) 9
    ("char is not part of grammar") (by decide)
  exact ⟨h1, h2 (by decide), h3 (by decide)⟩

/-! ## Arena lookup lemmas for the trie proofs -/

theorem get_node_set_node {N : Type} (a : Arena N) (id : Nat) (n : N) (k : Nat) :
    (a.set_node id n).get_node k =
      (a.get_node k).map (fun old => if k = id then n else old) := by
  unfold Arena.get_node Arena.set_node
  induction a.storage with
  | nil => rfl
  | cons kv rest ih =>
    simp only [List.map_cons]
    by_cases hk : kv.1 = k
    · subst hk
      rw [List.find?_cons_of_pos _ (by by_cases hi : kv.1 = id <;> simp [hi]),
          List.find?_cons_of_pos _ (by simp)]
      by_cases hi : kv.1 = id <;> simp [hi]
    · rw [List.find?_cons_of_neg _ (by by_cases hi : kv.1 = id <;> simp [hi, hk] <;> exact hi ▸ hk),
          List.find?_cons_of_neg _ (by simp [hk])]
      exact ih

theorem get_node_cons {N : Type} (j : Nat) (n : N) (l : List (Nat × N)) (c k : Nat) :
    (Arena.mk ((j, n) :: l) c).get_node k =
      if j = k then some n else (Arena.mk l c).get_node k := by
  unfold Arena.get_node
  by_cases h : j = k
  · rw [List.find?_cons_of_pos _ (by simp [h])]
    simp [h]
  · rw [List.find?_cons_of_neg _ (by simp [h])]
    simp [h]

theorem get_node_mem {N : Type} {a : Arena N} {k : Nat} {n : N}
    (h : a.get_node k = some n) : (k, n) ∈ a.storage := by
  unfold Arena.get_node at h
  obtain ⟨kv, hfind, hkv⟩ := Option.map_eq_some'.mp h
  have hmem := List.mem_of_find?_eq_some hfind
  have hpred := List.find?_some hfind
  have hk : kv.1 = k := by simpa using hpred
  have : kv = (k, n) := by
    cases kv
    simp_all
  rw [← this]
  exact hmem

theorem get_node_isSome_set {N : Type} {a : Arena N} {c : Nat} (id : Nat) (n : N)
    (h : (a.get_node c).isSome = true) : ((a.set_node id n).get_node c).isSome = true := by
  rw [get_node_set_node]
  simp only [Option.isSome_map']
  exact h

/-! ## Trie insert/collision lemmas (claim C8) -/

/-- When `_find` reaches a terminal with a payload along `seq`, `_insert_apply`
with the `ReturnError` policy follows the same existing path without any
mutation and fails with "key already exists", leaving the trie exactly as it
was. -/
theorem findRec_insertApplyRec_err {T : Type} (tr : Trie T) (v : T) :
    ∀ (seq : List Nat) (nid : Nat) (t : T) (f : T → T),
      tr.findRec seq nid = .ok (some v) →
      tr.insertApplyRec seq nid t f .returnError = .err ("key already exists") tr := by
  intro seq
  induction seq with
  | nil =>
    intro nid t f h
    rw [Trie.findRec.eq_def] at h
    rcases hg : tr.arena.get_node nid with _ | node
    · simp only [hg] at h
      simp at h
    · simp only [hg, PRes.ok.injEq] at h
      rw [Trie.insertApplyRec.eq_def]
      simp only [hg, h]
  | cons idx rem ih =>
    intro nid t f h
    rw [Trie.findRec.eq_def] at h
    rcases hg : tr.arena.get_node nid with _ | node
    · simp only [hg] at h
      simp at h
    · simp only [hg] at h
      rcases hc : node.children.get? idx with _ | slot
      · simp only [hc] at h
        simp at h
      · rcases slot with _ | next
        · simp only [hc] at h
          simp at h
        · simp only [hc] at h
          rw [Trie.insertApplyRec.eq_def]
          simp only [hg, hc]
          exact ih next t f h

/-- When `_find` reaches a terminal holding `v` along `seq`, `_insert_apply`
with the `ApplyFn` policy returns the old value `v`, replaces the terminal's
payload with `f v`, and changes nothing else: size, grammar, root and every
node's branch array are unchanged, and re-running `_find` now yields `f v`. -/
theorem findRec_insertApplyRec_apply {T : Type} (tr : Trie T) (v : T) :
    ∀ (seq : List Nat) (nid : Nat) (t : T) (f : T → T),
      tr.findRec seq nid = .ok (some v) →
      ∃ tr', tr.insertApplyRec seq nid t f .applyFn = .ok (some v) tr' ∧
        tr'.size = tr.size ∧ tr'.grammar = tr.grammar ∧ tr'.root = tr.root ∧
        (∀ k, (tr'.arena.get_node k).map TrieNode.children =
          (tr.arena.get_node k).map TrieNode.children) ∧
        tr'.findRec seq nid = .ok (some (f v)) := by
  intro seq
  induction seq with
  | nil =>
    intro nid t f h
    rw [Trie.findRec.eq_def] at h
    rcases hg : tr.arena.get_node nid with _ | node
    · simp only [hg] at h
      simp at h
    · simp only [hg, PRes.ok.injEq] at h
      refine ⟨{ tr with arena := tr.arena.set_node nid { node with payload := some (f v) } },
        ?_, rfl, rfl, rfl, ?_, ?_⟩
      · rw [Trie.insertApplyRec.eq_def]
        simp only [hg, h]
      · intro k
        rw [get_node_set_node]
        rcases hgk : tr.arena.get_node k with _ | nk
        · rfl
        · by_cases hk : k = nid
          · subst hk
            rw [hgk] at hg
            cases hg
            simp
          · simp [hk]
      · rw [Trie.findRec.eq_def]
        rw [get_node_set_node, hg]
        simp
  | cons idx rem ih =>
    intro nid t f h
    rw [Trie.findRec.eq_def] at h
    rcases hg : tr.arena.get_node nid with _ | node
    · simp only [hg] at h
      simp at h
    · simp only [hg] at h
      rcases hc : node.children.get? idx with _ | slot
      · simp only [hc] at h
        simp at h
      · rcases slot with _ | next
        · simp only [hc] at h
          simp at h
        · simp only [hc] at h
          obtain ⟨tr', hins, hsz, hgr, hrt, hch, hfind⟩ := ih next t f h
          refine ⟨tr', ?_, hsz, hgr, hrt, hch, ?_⟩
          · rw [Trie.insertApplyRec.eq_def]
            simp only [hg, hc]
            exact hins
          · have hck := hch nid
            rw [hg] at hck
            rcases hgk : tr'.arena.get_node nid with _ | node'
            · rw [hgk] at hck
              simp at hck
            · rw [hgk] at hck
              simp only [Option.map_some', Option.some.injEq] at hck
              rw [Trie.findRec.eq_def]
              simp only [hgk, hck, hc]
              exact hfind

theorem idx_lt_of_grammarWF {g : Grammar} (hg : GrammarWF g) {c : Char} {j : Nat}
    (h : g.idx c = some j) : j < g.seq.length := by
  unfold Grammar.idx at h
  obtain ⟨kv, hfind, hkv⟩ := Option.map_eq_some'.mp h
  exact hkv ▸ hg kv (List.mem_of_find?_eq_some hfind)

/-- Every index emitted by a valid grammar's encoder is below the branch
arity. -/
theorem to_indices_bound {g : Grammar} (hg : GrammarWF g) :
    ∀ (s : List Char) (seq : List Nat), g.to_indices s = .ok seq →
      ∀ i ∈ seq, i < g.seq.length := by
  intro s
  induction s with
  | nil =>
    intro seq h i hi
    simp only [Grammar.to_indices] at h
    cases h
    simp at hi
  | cons c cs ih =>
    intro seq h i hi
    simp only [Grammar.to_indices] at h
    rcases hidx : g.idx c with _ | j
    · rw [hidx] at h; cases h
    · rw [hidx] at h
      rcases hrec : g.to_indices cs with e | rest
      · rw [hrec] at h; cases h
      · rw [hrec] at h
        cases h
        rcases List.mem_cons.mp hi with hi | hi
        · exact hi ▸ idx_lt_of_grammarWF hg hidx
        · exact ih rest hrec i hi

/-- On a trie whose nodes all carry no payload (e.g. one of size 0 under the
size invariant), `_find` answers `None` along any in-arity path. -/
theorem findRec_none_of_no_terminals {T : Type} (tr : Trie T)
    (hterm : ∀ kv ∈ tr.arena.storage, kv.2.payload = none) (hWF : tr.nodesWF) :
    ∀ (seq : List Nat), (∀ i ∈ seq, i < tr.grammar.seq.length) →
      ∀ nid, tr.findRec seq nid = .ok none := by
  intro seq
  induction seq with
  | nil =>
    intro hb nid
    rw [Trie.findRec.eq_def]
    rcases hg : tr.arena.get_node nid with _ | node
    · simp
    · have hpn : node.payload = none := hterm (nid, node) (get_node_mem hg)
      simp [hpn]
  | cons idx rem ih =>
    intro hb nid
    rw [Trie.findRec.eq_def]
    rcases hg : tr.arena.get_node nid with _ | node
    · simp
    · obtain ⟨_, _, _, hlen, _⟩ := hWF (nid, node) (get_node_mem hg)
      have hidx : idx < node.children.length := by
        rw [hlen]
        exact hb idx (List.mem_cons_self _ _)
      have hcs : node.children.get? idx = some (node.children.get ⟨idx, hidx⟩) :=
        List.get?_eq_get hidx
      rcases hv : node.children.get ⟨idx, hidx⟩ with _ | next
      · rw [hv] at hcs
        simp only [hcs]
      · rw [hv] at hcs
        simp only [hcs]
        exact ih (fun i hi => hb i (List.mem_cons_of_mem _ hi)) next

theorem trieNode_get_id {T : Type} (n : TrieNode T) : HasId.get_id n = n.id := rfl

theorem allocChild_get_node_isSome {T : Type} (tr : Trie T) (nid : Nat) (node : TrieNode T)
    (idx : Nat) (c : Nat) (h : (tr.arena.get_node c).isSome = true) :
    (((tr.allocChild nid node idx).arena).get_node c).isSome = true := by
  simp only [Trie.allocChild]
  apply get_node_isSome_set
  rw [get_node_cons]
  split
  · rfl
  · exact h

theorem allocChild_get_node_fresh {T : Type} (tr : Trie T) (nid : Nat) (node : TrieNode T)
    (idx : Nat) (hne : nid ≠ tr.arena.id_counter) :
    ((tr.allocChild nid node idx).arena).get_node tr.arena.id_counter =
      some (TrieNode.newNode tr.arena.id_counter none node.arity) := by
  simp only [Trie.allocChild]
  rw [get_node_set_node, get_node_cons]
  simp [Ne.symm hne]

theorem allocChild_nodesWF {T : Type} (tr : Trie T) (nid : Nat) (node : TrieNode T) (idx : Nat)
    (hc1 : tr.arena.id_counter + 1 < usizeSize)
    (hWF : tr.nodesWF) (hg : tr.arena.get_node nid = some node) :
    (tr.allocChild nid node idx).nodesWF := by
  obtain ⟨hid, hlt, harity, hlen, hres⟩ := hWF (nid, node) (get_node_mem hg)
  have hne : nid ≠ tr.arena.id_counter := Nat.ne_of_lt hlt
  intro kv2 hkv2
  have hcntr : (tr.allocChild nid node idx).arena.id_counter = tr.arena.id_counter + 1 := by
    show (tr.arena.id_counter + 1) % usizeSize = tr.arena.id_counter + 1
    exact Nat.mod_eq_of_lt hc1
  rw [hcntr]
  simp only [Trie.allocChild, Arena.set_node, List.map_cons] at hkv2
  rcases List.mem_cons.mp hkv2 with hkv2 | hkv2
  · -- the freshly allocated child's entry (the cons head, unchanged by set_node)
    rw [if_neg (by simpa using Ne.symm hne)] at hkv2
    subst hkv2
    refine ⟨rfl, Nat.lt_succ_self _, harity, by simpa [TrieNode.newNode] using harity, ?_⟩
    intro oc hoc
    simp only [TrieNode.newNode] at hoc
    rw [List.eq_of_mem_replicate hoc]
    rfl
  · obtain ⟨kv0, hkv0, hset⟩ := List.mem_map.mp hkv2
    obtain ⟨h0id, h0lt, h0ar, h0len, h0res⟩ := hWF kv0 hkv0
    by_cases hk : kv0.1 = nid
    · rw [if_pos hk] at hset
      subst hset
      refine ⟨by simpa using hk ▸ hid, Nat.lt_succ_of_lt h0lt, harity, by simpa using hlen, ?_⟩
      intro oc hoc
      simp only at hoc
      rcases List.mem_or_eq_of_mem_set hoc with hoc | hoc
      · rcases oc with _ | c
        · rfl
        · exact allocChild_get_node_isSome tr nid node idx c (hres (some c) hoc)
      · subst hoc
        show (((tr.allocChild nid node idx).arena).get_node tr.arena.id_counter).isSome = true
        rw [allocChild_get_node_fresh tr nid node idx hne]
        rfl
    · rw [if_neg hk] at hset
      subst hset
      refine ⟨h0id, Nat.lt_succ_of_lt h0lt, h0ar, h0len, ?_⟩
      intro oc hoc
      rcases oc with _ | c
      · rfl
      · exact allocChild_get_node_isSome tr nid node idx c (h0res (some c) hoc)

theorem allocChild_findRec_fresh {T : Type} (tr : Trie T) (nid : Nat) (node : TrieNode T)
    (idx : Nat) (hne : nid ≠ tr.arena.id_counter)
    (harity : node.arity = tr.grammar.seq.length) :
    ∀ (rem : List Nat), (∀ i ∈ rem, i < tr.grammar.seq.length) →
      (tr.allocChild nid node idx).findRec rem tr.arena.id_counter = .ok none := by
  intro rem hb
  have hgf := allocChild_get_node_fresh tr nid node idx hne
  rw [Trie.findRec.eq_def]
  simp only [hgf]
  rcases rem with _ | ⟨j, rem'⟩
  · simp [TrieNode.newNode]
  · have hj : j < node.arity := by
      rw [harity]
      exact hb j (List.mem_cons_self _ _)
    have hlenr : j < (List.replicate node.arity (none : Option Nat)).length := by simpa using hj
    have hgj : (TrieNode.newNode tr.arena.id_counter none node.arity :
        TrieNode T).children.get? j = some none := by
      simp only [TrieNode.newNode]
      rw [List.get?_eq_get hlenr]
      simp
    simp only [hgj]

/-- Inserting a key whose path ends nowhere or at a payload-free terminal
succeeds, provided the id counter keeps strictly more headroom below the
`usize` wrap than the path is long: `_insert_apply` creates any missing
nodes (with fresh identities), stores the value, and bumps the size by
exactly one. -/
theorem insertApplyRec_fresh {T : Type} (v : T) (f : T → T) :
    ∀ (seq : List Nat) (tr : Trie T) (nid : Nat),
      tr.nodesWF →
      (∀ i ∈ seq, i < tr.grammar.seq.length) →
      tr.arena.id_counter + seq.length < usizeSize →
      (tr.arena.get_node nid).isSome = true →
      tr.findRec seq nid = .ok none →
      ∃ tr', tr.insertApplyRec seq nid v f .returnError = .ok none tr' ∧
        tr'.size = tr.size + 1 := by
  intro seq
  induction seq with
  | nil =>
    intro tr nid hWF hb _ hsome hf
    obtain ⟨node, hg⟩ := Option.isSome_iff_exists.mp hsome
    rw [Trie.findRec.eq_def] at hf
    simp only [hg, PRes.ok.injEq] at hf
    refine ⟨⟨tr.arena.set_node nid { node with payload := some v }, tr.grammar, tr.root,
      tr.size + 1⟩, ?_, rfl⟩
    rw [Trie.insertApplyRec.eq_def]
    simp only [hg, hf]
  | cons idx rem ih =>
    intro tr nid hWF hb hbud hsome hf
    obtain ⟨node, hg⟩ := Option.isSome_iff_exists.mp hsome
    obtain ⟨hid, hlt, harity, hlen, hres⟩ := hWF (nid, node) (get_node_mem hg)
    have hne : nid ≠ tr.arena.id_counter := Nat.ne_of_lt hlt
    have hc1 : tr.arena.id_counter + 1 < usizeSize := by
      rw [List.length_cons] at hbud
      omega
    have hidx : idx < node.children.length := by
      rw [hlen]
      exact hb idx (List.mem_cons_self _ _)
    have hcs : node.children.get? idx = some (node.children.get ⟨idx, hidx⟩) :=
      List.get?_eq_get hidx
    rw [Trie.findRec.eq_def] at hf
    rcases hv : node.children.get ⟨idx, hidx⟩ with _ | next
    · rw [hv] at hcs
      have hany : (tr.arena.storage.any (fun kv =>
          kv.1 == HasId.get_id (TrieNode.newNode tr.arena.id_counter none node.arity :
            TrieNode T))) = false := by
        rw [List.any_eq_false]
        intro kv hkv
        have hklt := (hWF kv hkv).2.1
        simp only [trieNode_get_id, TrieNode.newNode, beq_iff_eq]
        omega
      have hadd : (Arena.mk tr.arena.storage ((tr.arena.id_counter + 1) % usizeSize) :
          Arena (TrieNode T)).add_node
            (TrieNode.newNode tr.arena.id_counter none node.arity) =
          .ok (Arena.mk ((tr.arena.id_counter,
            TrieNode.newNode tr.arena.id_counter none node.arity) :: tr.arena.storage)
            ((tr.arena.id_counter + 1) % usizeSize)) := by
        unfold Arena.add_node
        dsimp only
        rw [hany]
        simp [trieNode_get_id, TrieNode.newNode]
      obtain ⟨tr', htr1, htr2⟩ := ih (tr.allocChild nid node idx) tr.arena.id_counter
        (allocChild_nodesWF tr nid node idx hc1 hWF hg)
        (fun i hi => hb i (List.mem_cons_of_mem _ hi))
        (by
          show (tr.arena.id_counter + 1) % usizeSize + rem.length < usizeSize
          rw [Nat.mod_eq_of_lt hc1]
          rw [List.length_cons] at hbud
          omega)
        (by rw [allocChild_get_node_fresh tr nid node idx hne]; rfl)
        (allocChild_findRec_fresh tr nid node idx hne harity rem
          (fun i hi => hb i (List.mem_cons_of_mem _ hi)))
      refine ⟨tr', ?_, ?_⟩
      · rw [Trie.insertApplyRec.eq_def]
        simp only [hg, hcs, Arena.get_new_id, hadd]
        exact htr1
      · rw [htr2]
        rfl
    · rw [hv] at hcs
      simp only [hg, hcs] at hf
      have hmemc : some next ∈ node.children := by
        rw [← hv]
        exact List.get_mem _ _ _
      obtain ⟨tr', htr1, htr2⟩ := ih tr next hWF
        (fun i hi => hb i (List.mem_cons_of_mem _ hi))
        (by rw [List.length_cons] at hbud; omega)
        (hres (some next) hmemc) hf
      refine ⟨tr', ?_, htr2⟩
      rw [Trie.insertApplyRec.eq_def]
      simp only [hg, hcs]
      exact htr1

/-- C8 (amended: the arena counter is a wrapping `usize`, so the fresh-key
branch additionally needs the counter to keep strictly more headroom below
the `2^64` wrap than the encoded key is long — otherwise a wrapped fresh
identity can collide with a live node and the insert panics, see the
counterexample): on a key already stored with value `v`, `insert` fails with
"key already exists" leaving the trie untouched, and `insert_or_update`
returns the old value, stores the new one, and leaves `len()` unchanged;
on a fresh (well-formed, encodable, headroom-respecting) key, `insert`
succeeds and `len()` grows by exactly one. -/
theorem trie_insert_collision_semantics (T : Type) [Inhabited T] (tr : Trie T)
    (s : List Char) (v v' : T) :
    (tr.find s = .ok (some v) → tr.insert s v' = .err ("key already exists") tr) ∧
    (tr.find s = .ok (some v) →
      ∃ tr', tr.insert_or_update s v' = .ok (some v) tr' ∧ tr'.len = tr.len ∧
        tr'.find s = .ok (some v')) ∧
    (tr.WF → GrammarWF tr.grammar → tr.find s = .ok none →
      (∃ seq, tr.grammar.to_indices s = .ok seq ∧
        tr.arena.id_counter + seq.length < usizeSize) →
      ∃ tr', tr.insert s v = .ok () tr' ∧ tr'.len = tr.len + 1) := by
  have hsome_split : tr.find s = .ok (some v) →
      tr.is_empty = false ∧ ∃ seq, tr.grammar.to_indices s = .ok seq ∧
        tr.findRec seq tr.root = .ok (some v) := by
    intro h
    unfold Trie.find at h
    rcases hemp : tr.is_empty with _ | _
    · rw [hemp] at h
      simp only [Bool.false_eq_true, if_false] at h
      unfold Trie.preprocess_seq at h
      rcases hti : tr.grammar.to_indices s with msg | seq
      · rw [hti] at h
        simp at h
      · rw [hti] at h
        exact ⟨rfl, seq, rfl, h⟩
    · rw [hemp] at h
      simp at h
  refine ⟨?_, ?_, ?_⟩
  · intro h
    obtain ⟨hemp, seq, hti, hfr⟩ := hsome_split h
    have herr := findRec_insertApplyRec_err tr v seq tr.root v' (fun _ => default) hfr
    unfold Trie.insert Trie.preprocess_seq
    simp only [hti, herr]
  · intro h
    obtain ⟨hemp, seq, hti, hfr⟩ := hsome_split h
    obtain ⟨tr', h1, hsz, hgr, hrt, hch, hfind⟩ :=
      findRec_insertApplyRec_apply tr v seq tr.root v' (fun _ => v') hfr
    refine ⟨tr', ?_, hsz, ?_⟩
    · unfold Trie.insert_or_update Trie.insert_or_apply Trie.preprocess_seq
      simp only [hti]
      exact h1
    · have hemp' : tr'.is_empty = false := by
        simpa [Trie.is_empty, hsz] using hemp
      unfold Trie.find Trie.preprocess_seq
      rw [hemp']
      simp only [Bool.false_eq_true, if_false, hgr, hti, hrt]
      exact hfind
  · intro hWF hgw hfind hex
    obtain ⟨hroot, hnwf, hsz⟩ := hWF
    obtain ⟨seq, hti, hbud⟩ := hex
    have hb := to_indices_bound hgw s seq hti
    have hfr : tr.findRec seq tr.root = .ok none := by
      unfold Trie.find at hfind
      rcases hemp : tr.is_empty with _ | _
      · rw [hemp] at hfind
        simp only [Bool.false_eq_true, if_false] at hfind
        unfold Trie.preprocess_seq at hfind
        rw [hti] at hfind
        exact hfind
      · have hsz0 : tr.size = 0 := by simpa [Trie.is_empty] using hemp
        have hterm : ∀ kv ∈ tr.arena.storage, kv.2.payload = none := by
          intro kv hkv
          have hfil : tr.arena.storage.filter (fun kv => kv.2.payload.isSome) = [] := by
            have hlen0 : (tr.arena.storage.filter (fun kv => kv.2.payload.isSome)).length = 0 := by
              rw [← hsz]
              exact hsz0
            exact List.length_eq_zero.mp hlen0
          by_contra hne
          have hsome' : kv.2.payload.isSome = true := by
            rcases hp : kv.2.payload with _ | w
            · exact absurd hp hne
            · simp
          have : kv ∈ tr.arena.storage.filter (fun kv => kv.2.payload.isSome) :=
            List.mem_filter.mpr ⟨hkv, hsome'⟩
          rw [hfil] at this
          cases this
        exact findRec_none_of_no_terminals tr hterm hnwf seq hb tr.root
    obtain ⟨tr', h1, h2⟩ :=
      insertApplyRec_fresh v (fun _ => default) seq tr tr.root hnwf hb hbud hroot hfr
    refine ⟨tr', ?_, h2⟩
    unfold Trie.insert Trie.preprocess_seq
    simp only [hti, h1]

/-- Witness for C8 on the trie over "ab" holding "a" ↦ 5: re-insert of "a"
fails leaving the trie unchanged, `insert_or_update` of "a" returns 5 and
stores 9 with unchanged length, and a fresh insert of "b" succeeds with
length 2. -/
theorem trie_insert_collision_semantics_witness :
    c2t1.insert ("a".toList) 9 = TOut.err ("key already exists") c2t1 ∧
    (∃ tr', c2t1.insert_or_update ("a".toList) 9 = TOut.ok (some 5) tr' ∧
      tr'.len = c2t1.len ∧ tr'.find ("a".toList) = PRes.ok (some 9)) ∧
    (∃ tr', c2t1.insert ("b".toList) 7 = TOut.ok () tr' ∧ tr'.len = c2t1.len + 1) := by
  obtain ⟨h1, h2, _⟩ := trie_insert_collision_semantics Nat c2t1 ("a".toList) 5 9
  obtain ⟨_, _, h3⟩ := trie_insert_collision_semantics Nat c2t1 ("b".toList) 7 0
  exact ⟨h1 (by decide), h2 (by decide),
    h3 (by decide) (by decide) (by decide) ⟨[0], by decide, by decide⟩⟩

/-- C8 (counterexample to the claim without the counter-headroom bound): a
well-formed trie over "ab" whose arena counter has reached `usize::MAX`
satisfies every hypothesis of the original fresh-key branch — well-formed,
valid grammar, `find("aa")` answers nothing, and "aa" encodes — yet
`insert("aa", 5)` panics instead of succeeding: the first allocation takes
identity `2^64 - 1` and wraps the counter to 0, so the second allocation's
identity 0 collides with the root's arena entry and
`add_node(..).expect(..)` aborts. -/
theorem trie_insert_wrap_panics :
    c8wrapTrie.WF ∧ GrammarWF c8wrapTrie.grammar ∧
    c8wrapTrie.find ("aa".toList) = PRes.ok none ∧
    c8wrapTrie.grammar.to_indices ("aa".toList) = Except.ok [1, 1] ∧
    c8wrapTrie.insert ("aa".toList) 5 = TOut.panicked ("could not add node!") := by
  decide
